import Mathlib

/-!
Verification of core behaviors of the arroyo stream-processing engine:
the controller-side node scheduler (slot accounting, placement, rollback,
stop semantics), the worker-side operator runtime generated by the
stream-node macros (checkpoint barriers, alignment, watermarks), the SSE
source's error rate limiting, and the REST error mapping.

Shallow embedding conventions:
* Hash maps become association lists (`AList`), keyed by `Nat` ids.
* `Instant` timestamps become `Nat`; `Duration::from_secs(30)` becomes `30`.
* Rust panics (`unwrap`, `assert!`, `unreachable!`) become `Option.none`.
* RPC interactions are driven by explicit oracles describing the peer's
  responses, so scheduler functions are pure in the oracle.
-/

namespace Arroyo

/-! ## Association lists standing in for `HashMap<Nat-like-id, V>` -/

abbrev AList (β : Type) := List (Nat × β)

def alLookup {β : Type} : AList β → Nat → Option β
  | [], _ => none
  | (k, v) :: rest, k2 => if k = k2 then some v else alLookup rest k2

/-- In-place replace if the key is present, append otherwise
(the observable behavior of `HashMap::insert`). -/
def alInsert {β : Type} : AList β → Nat → β → AList β
  | [], k, v => [(k, v)]
  | (k2, v2) :: rest, k, v =>
    if k2 = k then (k, v) :: rest else (k2, v2) :: alInsert rest k v

/-- Remove the first binding of a key (`HashMap::remove`). -/
def alErase {β : Type} : AList β → Nat → AList β
  | [], _ => []
  | (k2, v2) :: rest, k => if k2 = k then rest else (k2, v2) :: alErase rest k

/-- Sum of all values (`scheduled_slots.values().sum()`). -/
def alSum : AList Nat → Nat
  | [] => 0
  | (_, v) :: rest => v + alSum rest

theorem alLookup_alInsert_self {β : Type} (l : AList β) (k : Nat) (v : β) :
    alLookup (alInsert l k v) k = some v := by
  induction l with
  | nil => simp [alInsert, alLookup]
  | cons p rest ih =>
    by_cases h : p.1 = k
    · simp [alInsert, h, alLookup]
    · simp [alInsert, h, alLookup, ih]

theorem alLookup_alInsert_ne {β : Type} (l : AList β) (k k2 : Nat) (v : β) (h : k ≠ k2) :
    alLookup (alInsert l k v) k2 = alLookup l k2 := by
  induction l with
  | nil => simp [alInsert, alLookup, h]
  | cons p rest ih =>
    by_cases hp : p.1 = k
    · simp [alInsert, hp, alLookup, h]
    · simp [alInsert, hp, alLookup]
      by_cases hq : p.1 = k2 <;> simp [hq, ih]

theorem alErase_alInsert_of_lookup_none {β : Type} (l : AList β) (k : Nat) (v : β)
    (h : alLookup l k = none) : alErase (alInsert l k v) k = l := by
  induction l with
  | nil => simp [alInsert, alErase]
  | cons p rest ih =>
    by_cases hp : p.1 = k
    · simp [alLookup, hp] at h
    · simp [alLookup, hp] at h
      simp [alInsert, hp, alErase, ih h]

theorem alInsert_lookup_self {β : Type} (l : AList β) (k : Nat) (v : β)
    (h : alLookup l k = some v) : alInsert l k v = l := by
  induction l with
  | nil => simp [alLookup] at h
  | cons p rest ih =>
    by_cases hp : p.1 = k
    · simp [alLookup, hp] at h
      obtain ⟨k2, v2⟩ := p
      simp at hp h
      simp [alInsert, hp, h]
    · simp [alLookup, hp] at h
      simp [alInsert, hp, ih h]

theorem alInsert_alInsert_same {β : Type} (l : AList β) (k : Nat) (v v2 : β) :
    alInsert (alInsert l k v) k v2 = alInsert l k v2 := by
  induction l with
  | nil => simp [alInsert]
  | cons p rest ih =>
    by_cases hp : p.1 = k
    · simp [alInsert, hp]
    · simp [alInsert, hp, ih]

theorem alSum_alInsert_of_lookup_none (l : AList Nat) (k v : Nat)
    (h : alLookup l k = none) : alSum (alInsert l k v) = alSum l + v := by
  induction l with
  | nil => simp [alInsert, alSum]
  | cons p rest ih =>
    by_cases hp : p.1 = k
    · simp [alLookup, hp] at h
    · simp [alLookup, hp] at h
      simp [alInsert, hp, alSum, ih h]
      omega

theorem alSum_alErase_of_lookup_some (l : AList Nat) (k v : Nat)
    (h : alLookup l k = some v) : alSum l = alSum (alErase l k) + v := by
  induction l with
  | nil => simp [alLookup] at h
  | cons p rest ih =>
    by_cases hp : p.1 = k
    · simp [alLookup, hp] at h
      simp [alErase, hp, alSum, h]
      omega
    · simp [alLookup, hp] at h
      simp [alErase, hp, alSum, ih h]
      omega

theorem alLookup_isSome_alInsert {β : Type} (l : AList β) (k k2 : Nat) (v : β)
    (h : (alLookup (alInsert l k v) k2).isSome = true) :
    (alLookup l k2).isSome = true ∨ k2 = k := by
  by_cases hk : k = k2
  · right; exact hk.symm
  · left; rwa [alLookup_alInsert_ne l k k2 v hk] at h

theorem alLookup_isSome_alErase {β : Type} (l : AList β) (k k2 : Nat)
    (h : (alLookup (alErase l k) k2).isSome = true) :
    (alLookup l k2).isSome = true := by
  induction l with
  | nil => simp [alErase, alLookup] at h
  | cons p rest ih =>
    by_cases hp : p.1 = k
    · simp [alErase, hp] at h
      by_cases hq : p.1 = k2
      · simp [alLookup, hq]
      · simp [alLookup, hq]
        cases hl : alLookup rest k2 with
        | none =>
          rw [hl] at h
          simp at h
        | some w => simp
    · simp [alErase, hp, alLookup] at h ⊢
      by_cases hq : p.1 = k2
      · simp [hq] at h ⊢
      · simp [hq] at h ⊢
        exact ih h

/-! ## C10: tonic `Status` → HTTP `ErrorResp` mapping (arroyo-api/src/rest_utils.rs) -/

/-- The `tonic::Code` variants. -/
inductive TonicCode where
  | ok | cancelled | unknown | invalidArgument | deadlineExceeded | notFound
  | alreadyExists | permissionDenied | resourceExhausted | failedPrecondition
  | aborted | outOfRange | unimplemented | internal | unavailable | dataLoss
  | unauthenticated
deriving DecidableEq, Repr

structure ErrorResp where
  status_code : Nat
  message : String
deriving DecidableEq, Repr

/-- `impl From<tonic::Status> for ErrorResp` (rest_utils.rs lines 44-71).
A tonic status is a code plus a message. -/
def ErrorResp.fromStatus (code : TonicCode) (message : String) : ErrorResp :=
  let status_code :=
    match code with
    | .cancelled => 408
    | .unknown => 500
    | .invalidArgument => 400
    | .deadlineExceeded => 504
    | .notFound => 404
    | .alreadyExists => 409
    | .permissionDenied => 403
    | .resourceExhausted => 429
    | .failedPrecondition => 412
    | .aborted => 409
    | .outOfRange => 400
    | .unimplemented => 501
    | .internal => 500
    | .unavailable => 503
    | .dataLoss => 500
    | .unauthenticated => 401
    | _ => 500
  { status_code := status_code, message := message }

/-- The mapping table exactly as the specification states it
(spec §6, "HTTP API error mapping"). -/
def specHttpTable (code : TonicCode) : Nat :=
  match code with
  | .invalidArgument => 400
  | .outOfRange => 400
  | .unauthenticated => 401
  | .permissionDenied => 403
  | .notFound => 404
  | .alreadyExists => 409
  | .aborted => 409
  | .failedPrecondition => 412
  | .cancelled => 408
  | .deadlineExceeded => 504
  | .resourceExhausted => 429
  | .unimplemented => 501
  | .unavailable => 503
  | _ => 500

/-- C10: the conversion of a tonic RPC status into an HTTP error response maps
every code exactly per the spec's table: InvalidArgument/OutOfRange → 400,
Unauthenticated → 401, PermissionDenied → 403, NotFound → 404,
AlreadyExists/Aborted → 409, FailedPrecondition → 412, Cancelled → 408,
DeadlineExceeded → 504, ResourceExhausted → 429, Unimplemented → 501,
Unavailable → 503, and Unknown/Internal/DataLoss/default → 500. -/
theorem c10_status_to_http :
    ∀ (code : TonicCode) (message : String),
      (ErrorResp.fromStatus code message).status_code = specHttpTable code := by
  intro code message
  cases code <;> rfl

/-! ## C9: SSE source deserialization-error rate limiting
(arroyo-worker/src/connectors/sse.rs, `SSESourceFunc::run`) -/

/-- The two mutable locals of the SSE read loop:
`errors` (failures since the last report) and `last_reported_error`
(the `Instant` of the last report, initialized to stream start). -/
structure SseErrState where
  errors : Nat
  last_reported_error : Nat
deriving DecidableEq, Repr

/-- The `Err(e)` arm of `serialization_mode.deserialize_str` in the SSE read
loop (sse.rs lines 192-205) at time `now`: increment `errors`; if more than
30 seconds have elapsed since `last_reported_error`, send one
`ControlResp::Error` whose message carries the accumulated count, then reset
the counter and the report instant. Returns the new state and the count
carried by the report, when one is sent. -/
def sseOnDeserFailure (now : Nat) (s : SseErrState) : SseErrState × Option Nat :=
  let errors := s.errors + 1
  if 30 < now - s.last_reported_error then
    ({ errors := 0, last_reported_error := now }, some errors)
  else
    ({ errors := errors, last_reported_error := s.last_reported_error }, none)

/-- Run the loop over a sequence of deserialization failures (given by their
times), starting at input index `i`; collects each emitted report as
(input index it was emitted at, time, carried count). -/
def sseRun (i : Nat) (s : SseErrState) : List Nat → List (Nat × Nat × Nat)
  | [] => []
  | t :: ts =>
    match sseOnDeserFailure t s with
    | (s2, some c) => (i, t, c) :: sseRun (i + 1) s2 ts
    | (s2, none) => sseRun (i + 1) s2 ts

theorem sseRun_spec (ts : List Nat) :
    ∀ (i e last : Nat),
      (∀ r ∈ (sseRun i ⟨e, last⟩ ts).head?,
          30 < r.2.1 - last ∧ r.2.2 = e + (r.1 - i) + 1 ∧ i ≤ r.1) ∧
      List.Chain' (fun a b => 30 < b.2.1 - a.2.1 ∧ b.2.2 = b.1 - a.1)
        (sseRun i ⟨e, last⟩ ts) := by
  induction ts with
  | nil => intro i e last; simp [sseRun]
  | cons t ts ih =>
    intro i e last
    by_cases h : 30 < t - last
    · have hrun : sseRun i ⟨e, last⟩ (t :: ts) =
          (i, t, e + 1) :: sseRun (i + 1) ⟨0, t⟩ ts := by
        simp [sseRun, sseOnDeserFailure, h]
      rw [hrun]
      obtain ⟨ihHead, ihChain⟩ := ih (i + 1) 0 t
      constructor
      · intro r hr
        simp at hr
        subst hr
        simp [h]
      · apply List.chain'_cons'.2
        refine ⟨?_, ihChain⟩
        intro r hr
        have := ihHead r hr
        refine ⟨this.1, ?_⟩
        have h1 := this.2.1
        have h2 := this.2.2
        omega
    · have hrun : sseRun i ⟨e, last⟩ (t :: ts) =
          sseRun (i + 1) ⟨e + 1, last⟩ ts := by
        simp [sseRun, sseOnDeserFailure, h]
      rw [hrun]
      obtain ⟨ihHead, ihChain⟩ := ih (i + 1) (e + 1) last
      refine ⟨?_, ihChain⟩
      intro r hr
      have := ihHead r hr
      refine ⟨this.1, ?_, by omega⟩
      have h1 := this.2.1
      have h2 := this.2.2
      omega

/-- C9: SSE deserialization failures do not stop processing and are
rate-limited. Processing a stream of failures (with `last_reported_error`
initialized to the stream start time `t0`): the first report comes more than
30 seconds after `t0` and carries the count of all failures so far
(index + 1, the counter having been incremented on each failure); any two
consecutive reports are more than 30 seconds apart, and each report carries
exactly the number of failures accumulated since the previous report
(the counter resets after each report). -/
theorem c9_sse_error_rate_limit :
    ∀ (t0 : Nat) (ts : List Nat),
      (∀ r ∈ (sseRun 0 ⟨0, t0⟩ ts).head?, 30 < r.2.1 - t0 ∧ r.2.2 = r.1 + 1) ∧
      List.Chain' (fun a b => 30 < b.2.1 - a.2.1 ∧ b.2.2 = b.1 - a.1)
        (sseRun 0 ⟨0, t0⟩ ts) := by
  intro t0 ts
  obtain ⟨hHead, hChain⟩ := sseRun_spec ts 0 0 t0
  refine ⟨?_, hChain⟩
  intro r hr
  have := hHead r hr
  refine ⟨this.1, ?_⟩
  have h1 := this.2.1
  have h2 := this.2.2
  omega

/-! ## Node scheduler data model (arroyo-controller/src/schedulers/mod.rs) -/

/-- `NodeStatus` (mod.rs lines 254-261). Keys of `scheduled_slots` are
`WorkerId`s, values are slot counts. -/
structure NodeStatus where
  id : Nat
  free_slots : Nat
  scheduled_slots : AList Nat
  addr : String
  last_heartbeat : Nat
deriving DecidableEq, Repr

/-- `NodeStatus::new` (lines 264-275): all slots free, nothing scheduled. -/
def NodeStatus.new (id slots : Nat) (addr : String) (now : Nat) : NodeStatus :=
  { id := id, free_slots := slots, scheduled_slots := [], addr := addr,
    last_heartbeat := now }

/-- `NodeStatus::take_slots` (lines 277-288): `checked_sub` then insert;
panics (`none`) when more slots are requested than are free. -/
def NodeStatus.take_slots (n : NodeStatus) (worker slots : Nat) : Option NodeStatus :=
  if slots ≤ n.free_slots then
    some { n with free_slots := n.free_slots - slots,
                  scheduled_slots := alInsert n.scheduled_slots worker slots }
  else none

/-- `NodeStatus::release_slots` (lines 290-305): if the worker is recorded,
assert the recorded count matches (`none` on mismatch), remove it and add the
slots back to `free_slots`; an unknown worker only logs a warning. -/
def NodeStatus.release_slots (n : NodeStatus) (worker_id slots : Nat) : Option NodeStatus :=
  match alLookup n.scheduled_slots worker_id with
  | some freed =>
    if freed = slots then
      some { n with free_slots := n.free_slots + slots,
                    scheduled_slots := alErase n.scheduled_slots worker_id }
    else none
  | none => some n

/-- `NodeWorker` (lines 308-314). -/
structure NodeWorker where
  job_id : String
  node_id : Nat
  run_id : Int
  running : Bool
deriving DecidableEq, Repr

/-- `NodeSchedulerState` (lines 316-320): nodes keyed by `NodeId`,
workers keyed by `WorkerId`. -/
structure NodeSchedulerState where
  nodes : AList NodeStatus
  workers : AList NodeWorker
deriving DecidableEq, Repr

/-- `NodeSchedulerState::expire_nodes` (lines 322-339): drop every node whose
`last_heartbeat` is strictly before `expiration_time`. -/
def NodeSchedulerState.expire_nodes (s : NodeSchedulerState)
    (expiration_time : Nat) : NodeSchedulerState :=
  { s with nodes := s.nodes.filter (fun p => expiration_time ≤ p.2.last_heartbeat) }

/-- `Scheduler::register_node` for `NodeScheduler` (lines 417-427):
insert only when the `NodeId` entry is vacant. -/
def register_node (s : NodeSchedulerState) (node_id slots : Nat) (addr : String)
    (now : Nat) : NodeSchedulerState :=
  match alLookup s.nodes node_id with
  | some _ => s
  | none => { s with nodes := alInsert s.nodes node_id (NodeStatus.new node_id slots addr now) }

/-- `Scheduler::worker_finished` for `NodeScheduler` (lines 446-465):
release the slots on the worker's node (when known) and drop the worker
entry. `none` models the `release_slots` assertion failure. -/
def worker_finished (s : NodeSchedulerState) (node_id worker_id slots : Nat) :
    Option NodeSchedulerState :=
  match alLookup s.nodes node_id with
  | some n =>
    (n.release_slots worker_id slots).map (fun n2 =>
      { nodes := alInsert s.nodes node_id n2, workers := alErase s.workers worker_id })
  | none => some { s with workers := alErase s.workers worker_id }

/-- `Scheduler::workers_for_job` for `NodeScheduler` (lines 467-481):
ids of workers whose job matches, that are `running`, and whose run matches
when one is requested. -/
def workers_for_job (s : NodeSchedulerState) (job_id : String)
    (run_id : Option Int) : List Nat :=
  (s.workers.filter (fun p =>
      p.2.job_id == job_id && p.2.running &&
        match run_id with
        | none => true
        | some r => p.2.run_id == r)).map (fun p => p.1)

/-! ## C1: stop semantics of the node scheduler -/

/-- `StopWorkerStatus` of the node RPC contract. -/
inductive StopWorkerStatus where
  | ok | notFound | stopFailed
deriving DecidableEq, Repr

/-- Oracle describing how the contacted node agent behaves for one
`StopWorker` RPC. -/
inductive StopRpc where
  | connectFail
  | rpcFail
  | resp (status : StopWorkerStatus)
deriving DecidableEq, Repr

/-- `NodeScheduler::stop_worker` (lines 359-412), with the peer behavior given
by `rpc`. Returns `Ok(Some worker_id)` when the worker is assumed already
finished / the node is unknown / the peer is unreachable; forwards the
response match otherwise: `(NotFound, force=false)` and `(StopFailed, _)`
bail, anything else returns `Ok(None)`. -/
def stop_worker (s : NodeSchedulerState) (job_id : String) (worker_id : Nat)
    (force : Bool) (rpc : StopRpc) : Except String (Option Nat) :=
  match alLookup s.workers worker_id with
  | none => .ok (some worker_id)
  | some w =>
    match alLookup s.nodes w.node_id with
    | none => .ok (some worker_id)
    | some _node =>
      match rpc with
      | .connectFail => .ok (some worker_id)
      | .rpcFail => .ok (some worker_id)
      | .resp status =>
        match status, force with
        | .notFound, false => .error "couldn't find worker, will only continue if force"
        | .stopFailed, _ => .error "tried to kill and couldn't"
        | _, _ => .ok none

/-- The per-worker loop of `NodeScheduler::stop_workers` (lines 646-658):
`Some(worker_id)` flips the worker's `running` flag to `false`;
`None` bails with "Failed to stop worker"; an `Err` from `stop_worker`
propagates. State mutations made before a bail persist. -/
def stopWorkersGo (job_id : String) (force : Bool) (oracle : Nat → StopRpc) :
    List Nat → Nat → NodeSchedulerState → Except String Unit × NodeSchedulerState
  | [], _, s => (.ok (), s)
  | wid :: rest, k, s =>
    match stop_worker s job_id wid force (oracle k) with
    | .error msg => (.error msg, s)
    | .ok (some w) =>
      let s2 :=
        match alLookup s.workers w with
        | some nw => { s with workers := alInsert s.workers w { nw with running := false } }
        | none => s
      stopWorkersGo job_id force oracle rest (k + 1) s2
    | .ok none => (.error "Failed to stop worker", s)

/-- `NodeScheduler::stop_workers` (lines 633-661): stop every worker returned
by `workers_for_job`, with the `k`-th stop RPC behaving as `oracle k`. -/
def stop_workers (s : NodeSchedulerState) (job_id : String) (run_id : Option Int)
    (force : Bool) (oracle : Nat → StopRpc) : Except String Unit × NodeSchedulerState :=
  stopWorkersGo job_id force oracle (workers_for_job s job_id run_id) 0 s

/-- A state with one healthy node and one running worker of job "j". -/
def c1State : NodeSchedulerState :=
  { nodes := [(1, { id := 1, free_slots := 12,
                    scheduled_slots := [(100, 4)], addr := "node-1:5000",
                    last_heartbeat := 50 })],
    workers := [(100, { job_id := "j", node_id := 1, run_id := 0, running := true })] }

/-- C1: CODE BUG. When the worker's node agent responds to the `StopWorker`
RPC with status `Ok`, `stop_worker` returns `Ok(None)` and the `None` arm of
`stop_workers` bails with "Failed to stop worker": the call returns an error
on account of that worker and leaves the worker's `running` flag `true`,
contradicting the spec's "Successful stop flips `running=false` in the worker
table" and does-not-error semantics. -/
theorem c1_stop_rpc_ok_bails :
    stop_workers c1State "j" none false (fun _ => .resp .ok) =
      (.error "Failed to stop worker", c1State) ∧
    alLookup ((stop_workers c1State "j" none false (fun _ => .resp .ok)).2).workers 100 =
      some { job_id := "j", node_id := 1, run_id := 0, running := true } := by
  constructor
  · rfl
  · rfl

/-! ## `NodeScheduler::start_workers` (lines 483-631) -/

/-- `StartPipelineReq` (lines 94-103). -/
structure StartPipelineReq where
  name : String
  pipeline_path : String
  wasm_path : String
  job_id : String
  hash : String
  run_id : Int
  slots : Nat
  env_vars : List (String × String)
deriving DecidableEq, Repr

/-- `SchedulerError` (lines 346-350). -/
inductive SchedulerError where
  | NotEnoughSlots (slots_needed : Nat)
  | Other (msg : String)
  | CompilationNeeded
deriving DecidableEq, Repr

/-- Oracle describing one node agent's behavior for one `StartWorker`
interaction: connection failure, failure during the streamed RPC, or success
returning the assigned `WorkerId`. -/
inductive StartRpc where
  | connectFail
  | startFail
  | ok (worker_id : Nat)
deriving DecidableEq, Repr

/-- Worker ids handed out by the oracle entries that succeed. -/
def okIds (oracle : List StartRpc) : List Nat :=
  oracle.filterMap (fun r => match r with | .ok w => some w | _ => none)

/-- The `max_by_key(free_slots)` part of node selection; Rust's `max_by_key`
returns the last maximal element, so ties prefer the later element. -/
def maxByFree : List NodeStatus → Option NodeStatus
  | [] => none
  | n :: rest =>
    match maxByFree rest with
    | none => some n
    | some m => if m.free_slots < n.free_slots then some n else some m

/-- Node selection inside the placement loop (lines 510-524): among the nodes
with free slots whose heartbeat is within 30 seconds, the one with the most
free slots. -/
def pickNode (nodes : AList NodeStatus) (now : Nat) : Option NodeStatus :=
  maxByFree ((nodes.map (fun p => p.2)).filter
    (fun n => 0 < n.free_slots && now - n.last_heartbeat < 30))

/-- One rollback release: `state.nodes.get_mut(node_id).unwrap().release_slots(..)`
(lines 537-545 and 594-601); `none` on the `unwrap` or assertion panic. -/
def releaseOne : Nat × Nat × Nat → AList NodeStatus → Option (AList NodeStatus)
  | (nid, wid, slots), nodes =>
    match alLookup nodes nid with
    | none => none
    | some n => (n.release_slots wid slots).map (fun n2 => alInsert nodes nid n2)

/-- Release every `(node_id, worker_id, slots)` entry of `slots_assigned`
in push order. -/
def releaseAssigned : List (Nat × Nat × Nat) → AList NodeStatus → Option (AList NodeStatus)
  | [], nodes => some nodes
  | x :: rest, nodes =>
    match releaseOne x nodes with
    | none => none
    | some nodes2 => releaseAssigned rest nodes2

/-- One successful placement commit (lines 610-614): look the node up again
and `take_slots` on it; `none` models the `unwrap`/`take_slots` panics. -/
def takeOne : Nat × Nat × Nat → AList NodeStatus → Option (AList NodeStatus)
  | (nid, wid, slots), nodes =>
    match alLookup nodes nid with
    | none => none
    | some n => (n.take_slots wid slots).map (fun n2 => alInsert nodes nid n2)

/-- The placement loop of `start_workers` (lines 506-629). `fuel` bounds the
iteration count (the loop terminates because each iteration schedules at
least one slot; calls pass `fuel = slots`, which suffices). `oracle` supplies
the per-iteration RPC outcomes. `none` models a panic
(`unreachable!()` when no eligible node remains, `unwrap`s, `take_slots`
overflow) and exhausted fuel/oracle. -/
def startLoop (now : Nat) (req : StartPipelineReq) :
    Nat → List StartRpc → Nat → List (Nat × Nat × Nat) → NodeSchedulerState →
    Option (Except SchedulerError Unit × NodeSchedulerState)
  | _, _, 0, _, s => some (.ok (), s)
  | 0, _, _ + 1, _, _ => none
  | fuel + 1, oracle, to_schedule + 1, slots_assigned, s =>
    match pickNode s.nodes now with
    | none => none
    | some node =>
      let slots_for_this_one := min node.free_slots (to_schedule + 1)
      match oracle with
      | [] => none
      | r :: oracle2 =>
        match r with
        | .connectFail =>
          match releaseAssigned slots_assigned s.nodes with
          | none => none
          | some nodes2 =>
            some (.error (.Other ("Failed to connect to node " ++ node.addr)),
                  { s with nodes := nodes2 })
        | .startFail =>
          match releaseAssigned slots_assigned s.nodes with
          | none => none
          | some nodes2 =>
            some (.error (.Other ("Failed to start worker on node " ++ node.addr)),
                  { s with nodes := nodes2 })
        | .ok worker_id =>
          match takeOne (node.id, worker_id, slots_for_this_one) s.nodes with
          | none => none
          | some nodes2 =>
            startLoop now req fuel oracle2 (to_schedule + 1 - slots_for_this_one)
              (slots_assigned ++ [(node.id, worker_id, slots_for_this_one)])
              { nodes := nodes2,
                workers := alInsert s.workers worker_id
                  { job_id := req.job_id, node_id := node.id,
                    run_id := req.run_id, running := true } }

def sumFree (nodes : AList NodeStatus) : Nat :=
  (nodes.map (fun p => p.2.free_slots)).sum

/-- `NodeScheduler::start_workers` (lines 483-631). `binariesOk` stands for
`get_binaries` succeeding (its failure maps to `CompilationNeeded`). Under
the lock: expire nodes stale for 30 seconds, fail with `NotEnoughSlots` if
the remaining free slots cannot cover the request, otherwise run the
placement loop. The returned state is the (mutated) scheduler state after
the call, whether it succeeds or errors. -/
def start_workers (now : Nat) (req : StartPipelineReq) (binariesOk : Bool)
    (oracle : List StartRpc) (s : NodeSchedulerState) :
    Option (Except SchedulerError Unit × NodeSchedulerState) :=
  if binariesOk = false then some (.error .CompilationNeeded, s)
  else
    let se := s.expire_nodes (now - 30)
    let free_slots := sumFree se.nodes
    if free_slots < req.slots then
      some (.error (.NotEnoughSlots (req.slots - free_slots)), se)
    else
      startLoop now req req.slots oracle req.slots [] se

/-! ## C3: insufficient capacity fails without mutating slot accounting -/

theorem alLookup_mem_keys {β : Type} (l : AList β) (k : Nat) (v : β)
    (h : alLookup l k = some v) : k ∈ l.map Prod.fst := by
  induction l with
  | nil => simp [alLookup] at h
  | cons p rest ih =>
    by_cases hp : p.1 = k
    · simp [hp]
    · simp [alLookup, hp] at h
      simp [ih h]

theorem alLookup_filter_of_nodup {β : Type} (l : AList β) (p : Nat × β → Bool)
    (k : Nat) (v : β) (hnd : (l.map Prod.fst).Nodup)
    (h : alLookup (l.filter p) k = some v) : alLookup l k = some v := by
  induction l with
  | nil => simp [alLookup] at h
  | cons x rest ih =>
    rw [List.map_cons, List.nodup_cons] at hnd
    by_cases hpx : p x = true
    · rw [List.filter_cons_of_pos hpx] at h
      by_cases hk : x.1 = k
      · simp [alLookup, hk] at h ⊢
        exact h
      · simp [alLookup, hk] at h ⊢
        exact ih hnd.2 h
    · rw [List.filter_cons_of_neg (by simpa using hpx)] at h
      have hrest := ih hnd.2 h
      by_cases hk : x.1 = k
      · exfalso
        have hmem := alLookup_mem_keys rest k v hrest
        rw [← hk] at hmem
        exact hnd.1 hmem
      · simp [alLookup, hk]
        exact hrest

/-- C3: after expiring nodes whose heartbeat is older than 30 seconds, if the
remaining free slots cannot cover the request, `start_workers` returns
`NotEnoughSlots` with `slots_needed` equal to the shortfall, and the state is
exactly the expired state: every surviving node keeps its pre-call
`free_slots` and `scheduled_slots` untouched. -/
theorem c3_not_enough_slots (now : Nat) (req : StartPipelineReq)
    (oracle : List StartRpc) (s : NodeSchedulerState)
    (hnd : (s.nodes.map Prod.fst).Nodup)
    (h : sumFree ((s.expire_nodes (now - 30)).nodes) < req.slots) :
    start_workers now req true oracle s =
      some (.error (.NotEnoughSlots
              (req.slots - sumFree ((s.expire_nodes (now - 30)).nodes))),
            s.expire_nodes (now - 30)) ∧
    ∀ id n2, alLookup ((s.expire_nodes (now - 30)).nodes) id = some n2 →
      alLookup s.nodes id = some n2 := by
  constructor
  · simp [start_workers, h]
  · intro id n2 hl
    exact alLookup_filter_of_nodup s.nodes _ id n2 hnd hl

/-- Spec scenario 3: two nodes totalling 24 free slots. -/
def c3State : NodeSchedulerState :=
  { nodes := [(1, { id := 1, free_slots := 16, scheduled_slots := [],
                    addr := "node-1:5000", last_heartbeat := 100 }),
              (2, { id := 2, free_slots := 8, scheduled_slots := [],
                    addr := "node-2:5000", last_heartbeat := 100 })],
    workers := [] }

def c3Req : StartPipelineReq :=
  { name := "p", pipeline_path := "s3://p", wasm_path := "s3://w",
    job_id := "job_c3", hash := "h", run_id := 1, slots := 32, env_vars := [] }

theorem c3_witness :
    (c3State.nodes.map Prod.fst).Nodup ∧
    sumFree ((c3State.expire_nodes (100 - 30)).nodes) < c3Req.slots ∧
    start_workers 100 c3Req true [] c3State =
      some (.error (.NotEnoughSlots 8), c3State.expire_nodes (100 - 30)) := by
  refine ⟨by decide, by decide, ?_⟩
  have h := c3_not_enough_slots 100 c3Req [] c3State (by decide) (by decide)
  have h8 : c3Req.slots - sumFree ((c3State.expire_nodes (100 - 30)).nodes) = 8 := by decide
  rw [h8] at h
  exact h.1

/-! ## Rollback algebra for `start_workers` (C2, C8) -/

theorem alLookup_mem {β : Type} (l : AList β) (k : Nat) (v : β)
    (h : alLookup l k = some v) : (k, v) ∈ l := by
  induction l with
  | nil => simp [alLookup] at h
  | cons p rest ih =>
    by_cases hp : p.1 = k
    · simp [alLookup, hp] at h
      obtain ⟨k2, v2⟩ := p
      simp at hp
      simp [hp, h.symm]
    · simp [alLookup, hp] at h
      simp [ih h]

theorem alErase_alInsert_comm {β : Type} (l : AList β) (k1 k2 : Nat) (v : β)
    (h : k1 ≠ k2) : alErase (alInsert l k1 v) k2 = alInsert (alErase l k2) k1 v := by
  induction l with
  | nil => simp [alInsert, alErase, h]
  | cons p rest ih =>
    by_cases h1 : p.1 = k1
    · have h2 : ¬ p.1 = k2 := by rw [h1]; exact h
      simp [alInsert, alErase, h1, h2, h, Ne.symm h]
    · by_cases h2 : p.1 = k2
      · simp [alInsert, alErase, h1, h2, h, Ne.symm h]
      · simp [alInsert, alErase, h1, h2, ih]

theorem alInsert_comm {β : Type} (l : AList β) (a b : Nat) (va vb : β)
    (hab : a ≠ b) (ha : (alLookup l a).isSome = true)
    (hb : (alLookup l b).isSome = true) :
    alInsert (alInsert l a va) b vb = alInsert (alInsert l b vb) a va := by
  induction l with
  | nil => simp [alLookup] at ha
  | cons p rest ih =>
    by_cases hpa : p.1 = a
    · have hpb : ¬ p.1 = b := by rw [hpa]; exact hab
      simp [alInsert, hpa, hpb, hab, Ne.symm hab]
    · by_cases hpb : p.1 = b
      · simp [alInsert, hpa, hpb, hab, Ne.symm hab]
      · simp [alLookup, hpa] at ha
        simp [alLookup, hpb] at hb
        simp [alInsert, hpa, hpb, ih ha hb]

theorem alLookup_filter_of_pred {β : Type} (l : AList β) (p : Nat × β → Bool)
    (k : Nat) (v : β) (h : alLookup l k = some v) (hp : p (k, v) = true) :
    alLookup (l.filter p) k = some v := by
  induction l with
  | nil => simp [alLookup] at h
  | cons x rest ih =>
    by_cases hx : x.1 = k
    · simp [alLookup, hx] at h
      have hkeep : p x = true := by
        obtain ⟨k2, v2⟩ := x
        simp at hx
        simp at h
        rw [hx, h]
        exact hp
      rw [List.filter_cons_of_pos hkeep]
      simp [alLookup, hx, h]
    · simp [alLookup, hx] at h
      by_cases hkeep : p x = true
      · rw [List.filter_cons_of_pos hkeep]
        simp [alLookup, hx]
        exact ih h
      · rw [List.filter_cons_of_neg (by simpa using hkeep)]
        exact ih h

/-- The node written by a successful `take_slots` on node `nx`. -/
def takenNode (n : NodeStatus) (wx sx : Nat) : NodeStatus :=
  { n with free_slots := n.free_slots - sx,
           scheduled_slots := alInsert n.scheduled_slots wx sx }

/-- The node written by a `release_slots` that found the worker. -/
def releasedNode (m : NodeStatus) (wy sy : Nat) : NodeStatus :=
  { m with free_slots := m.free_slots + sy,
           scheduled_slots := alErase m.scheduled_slots wy }

theorem takeOne_intro (nx wx sx : Nat) (M : AList NodeStatus) (n : NodeStatus)
    (hl : alLookup M nx = some n) (hle : sx ≤ n.free_slots) :
    takeOne (nx, wx, sx) M = some (alInsert M nx (takenNode n wx sx)) := by
  simp [takeOne, hl, NodeStatus.take_slots, hle, takenNode]

theorem takeOne_elim (nx wx sx : Nat) (M M1 : AList NodeStatus)
    (h : takeOne (nx, wx, sx) M = some M1) :
    ∃ n, alLookup M nx = some n ∧ sx ≤ n.free_slots ∧
      M1 = alInsert M nx (takenNode n wx sx) := by
  rw [takeOne] at h
  cases hl : alLookup M nx with
  | none => rw [hl] at h; simp at h
  | some n =>
    rw [hl] at h
    simp only [NodeStatus.take_slots] at h
    by_cases hle : sx ≤ n.free_slots
    · simp [hle] at h
      exact ⟨n, rfl, hle, by rw [← h]; rfl⟩
    · simp [hle] at h

theorem releaseOne_skip_intro (ny wy sy : Nat) (M : AList NodeStatus) (m : NodeStatus)
    (hl : alLookup M ny = some m) (hw : alLookup m.scheduled_slots wy = none) :
    releaseOne (ny, wy, sy) M = some (alInsert M ny m) := by
  simp [releaseOne, hl, NodeStatus.release_slots, hw]

theorem releaseOne_hit_intro (ny wy sy : Nat) (M : AList NodeStatus) (m : NodeStatus)
    (hl : alLookup M ny = some m) (hw : alLookup m.scheduled_slots wy = some sy) :
    releaseOne (ny, wy, sy) M = some (alInsert M ny (releasedNode m wy sy)) := by
  simp [releaseOne, hl, NodeStatus.release_slots, hw, releasedNode]

theorem releaseOne_elim (ny wy sy : Nat) (M P : AList NodeStatus)
    (h : releaseOne (ny, wy, sy) M = some P) :
    ∃ m, alLookup M ny = some m ∧
      ((alLookup m.scheduled_slots wy = none ∧ P = alInsert M ny m) ∨
       (alLookup m.scheduled_slots wy = some sy ∧
        P = alInsert M ny (releasedNode m wy sy))) := by
  rw [releaseOne] at h
  cases hl : alLookup M ny with
  | none => rw [hl] at h; simp at h
  | some m =>
    rw [hl] at h
    simp only [NodeStatus.release_slots] at h
    refine ⟨m, rfl, ?_⟩
    cases hw : alLookup m.scheduled_slots wy with
    | none =>
      rw [hw] at h
      simp at h
      left
      exact ⟨rfl, h.symm⟩
    | some freed =>
      rw [hw] at h
      by_cases hf : freed = sy
      · subst hf
        simp at h
        right
        refine ⟨rfl, ?_⟩
        rw [← h]
        rfl
      · simp [hf] at h

/-- Undoing a `take_slots` commit with the matching rollback release restores
the node map exactly, provided the worker was not already scheduled on that
node. -/
theorem releaseOne_takeOne_id (x : Nat × Nat × Nat) (M M2 : AList NodeStatus)
    (htake : takeOne x M = some M2)
    (hfresh : ∀ n, alLookup M x.1 = some n →
      alLookup n.scheduled_slots x.2.1 = none) :
    releaseOne x M2 = some M := by
  obtain ⟨nx, wx, sx⟩ := x
  obtain ⟨n, hl, hle, hM2⟩ := takeOne_elim nx wx sx M M2 htake
  have hfr := hfresh n hl
  subst hM2
  have hsched : alLookup (takenNode n wx sx).scheduled_slots wx = some sx := by
    simp [takenNode, alLookup_alInsert_self]
  have := releaseOne_hit_intro nx wx sx (alInsert M nx (takenNode n wx sx))
    (takenNode n wx sx) (alLookup_alInsert_self M nx _) hsched
  rw [this]
  congr 1
  rw [alInsert_alInsert_same]
  have hnode : releasedNode (takenNode n wx sx) wx sx = n := by
    unfold releasedNode takenNode
    have h1 : n.free_slots - sx + sx = n.free_slots := by omega
    have h2 : alErase (alInsert n.scheduled_slots wx sx) wx = n.scheduled_slots :=
      alErase_alInsert_of_lookup_none _ _ _ hfr
    simp [h1, h2]
  rw [hnode]
  exact alInsert_lookup_self M nx n hl

/-- A rollback release that predates a `take_slots` commit commutes forward
past it, as long as the two concern different workers. -/
theorem releaseOne_after_takeOne (x y : Nat × Nat × Nat) (M M1 P : AList NodeStatus)
    (htake : takeOne x M = some M1)
    (hrel : releaseOne y M = some P)
    (hw : y.2.1 ≠ x.2.1) :
    ∃ P2, releaseOne y M1 = some P2 ∧ takeOne x P = some P2 := by
  obtain ⟨nx, wx, sx⟩ := x
  obtain ⟨ny, wy, sy⟩ := y
  simp only [] at hw
  obtain ⟨n, hlx, hle, hM1⟩ := takeOne_elim nx wx sx M M1 htake
  obtain ⟨m, hly, hcase⟩ := releaseOne_elim ny wy sy M P hrel
  by_cases hnn : ny = nx
  · subst hnn
    rw [hlx] at hly
    injection hly with hly
    subst hly
    cases hcase with
    | inl hc =>
      obtain ⟨hwn, hP⟩ := hc
      have hPM : P = M := by rw [hP]; exact alInsert_lookup_self M ny n hlx
      refine ⟨M1, ?_, by rw [hPM]; exact htake⟩
      subst hM1
      have hsk : alLookup (takenNode n wx sx).scheduled_slots wy = none := by
        simp only [takenNode]
        rw [alLookup_alInsert_ne _ _ _ _ (Ne.symm hw)]
        exact hwn
      have := releaseOne_skip_intro ny wy sy (alInsert M ny (takenNode n wx sx))
        (takenNode n wx sx) (alLookup_alInsert_self M ny _) hsk
      rw [this, alInsert_alInsert_same]
    | inr hc =>
      obtain ⟨hwn, hP⟩ := hc
      subst hM1 hP
      have hsk : alLookup (takenNode n wx sx).scheduled_slots wy = some sy := by
        simp only [takenNode]
        rw [alLookup_alInsert_ne _ _ _ _ (Ne.symm hw)]
        exact hwn
      have hrel2 := releaseOne_hit_intro ny wy sy (alInsert M ny (takenNode n wx sx))
        (takenNode n wx sx) (alLookup_alInsert_self M ny _) hsk
      have hle2 : sx ≤ (releasedNode n wy sy).free_slots := by
        simp [releasedNode]; omega
      have htake2 := takeOne_intro ny wx sx (alInsert M ny (releasedNode n wy sy))
        (releasedNode n wy sy) (alLookup_alInsert_self M ny _) hle2
      refine ⟨_, hrel2, ?_⟩
      rw [htake2, alInsert_alInsert_same, alInsert_alInsert_same]
      have hnode : takenNode (releasedNode n wy sy) wx sx =
          releasedNode (takenNode n wx sx) wy sy := by
        simp only [takenNode, releasedNode, NodeStatus.mk.injEq,
          eq_self_iff_true, true_and, and_true]
        refine ⟨by omega, ?_⟩
        exact (alErase_alInsert_comm n.scheduled_slots wx wy sx (Ne.symm hw)).symm
      rw [hnode]
  · cases hcase with
    | inl hc =>
      obtain ⟨hwn, hP⟩ := hc
      subst hM1 hP
      have hly1 : alLookup (alInsert M nx (takenNode n wx sx)) ny = some m := by
        rw [alLookup_alInsert_ne _ _ _ _ (fun h => hnn h.symm)]; exact hly
      have hrel2 := releaseOne_skip_intro ny wy sy _ m hly1 hwn
      have hlx1 : alLookup (alInsert M ny m) nx = some n := by
        rw [alLookup_alInsert_ne _ _ _ _ hnn]; exact hlx
      have htake2 := takeOne_intro nx wx sx (alInsert M ny m) n hlx1 hle
      refine ⟨_, hrel2, ?_⟩
      rw [htake2, alInsert_comm M ny nx m (takenNode n wx sx) hnn
        (by simp [hly]) (by simp [hlx])]
    | inr hc =>
      obtain ⟨hwn, hP⟩ := hc
      subst hM1 hP
      have hly1 : alLookup (alInsert M nx (takenNode n wx sx)) ny = some m := by
        rw [alLookup_alInsert_ne _ _ _ _ (fun h => hnn h.symm)]; exact hly
      have hrel2 := releaseOne_hit_intro ny wy sy _ m hly1 hwn
      have hlx1 : alLookup (alInsert M ny (releasedNode m wy sy)) nx = some n := by
        rw [alLookup_alInsert_ne _ _ _ _ hnn]; exact hlx
      have htake2 := takeOne_intro nx wx sx (alInsert M ny (releasedNode m wy sy)) n hlx1 hle
      refine ⟨_, hrel2, ?_⟩
      rw [htake2, alInsert_comm M ny nx (releasedNode m wy sy) (takenNode n wx sx) hnn
        (by simp [hly]) (by simp [hlx])]

theorem releaseAssigned_append (l : List (Nat × Nat × Nat)) (x : Nat × Nat × Nat) :
    ∀ M : AList NodeStatus, releaseAssigned (l ++ [x]) M =
      match releaseAssigned l M with
      | none => none
      | some N => releaseOne x N := by
  induction l with
  | nil =>
    intro M
    simp only [List.nil_append, releaseAssigned]
    cases h : releaseOne x M with
    | none => simp [h]
    | some N => simp [h, releaseAssigned]
  | cons y l ih =>
    intro M
    simp only [List.cons_append, releaseAssigned]
    cases h : releaseOne y M with
    | none => rfl
    | some N => exact ih N

theorem releaseAssigned_after_takeOne (l : List (Nat × Nat × Nat)) :
    ∀ (x : Nat × Nat × Nat) (M M1 N : AList NodeStatus),
      takeOne x M = some M1 → releaseAssigned l M = some N →
      (∀ y ∈ l, y.2.1 ≠ x.2.1) →
      ∃ N2, releaseAssigned l M1 = some N2 ∧ takeOne x N = some N2 := by
  induction l with
  | nil =>
    intro x M M1 N htake hrel _
    simp [releaseAssigned] at hrel
    subst hrel
    exact ⟨M1, rfl, htake⟩
  | cons y l ih =>
    intro x M M1 N htake hrel hdisj
    simp only [releaseAssigned] at hrel
    cases hy : releaseOne y M with
    | none => rw [hy] at hrel; simp at hrel
    | some Py =>
      rw [hy] at hrel
      obtain ⟨P2, hy2, htake2⟩ := releaseOne_after_takeOne x y M M1 Py htake hy
        (hdisj y (List.mem_cons_self y l))
      obtain ⟨N2, hrel3, htake3⟩ := ih x Py P2 N htake2 hrel
        (fun z hz => hdisj z (List.mem_cons_of_mem y hz))
      refine ⟨N2, ?_, htake3⟩
      simp only [releaseAssigned, hy2]
      exact hrel3

theorem okIds_cons_ok (w : Nat) (o : List StartRpc) :
    okIds (.ok w :: o) = w :: okIds o := by
  simp [okIds]

theorem okIds_cons_connectFail (o : List StartRpc) :
    okIds (.connectFail :: o) = okIds o := by
  simp [okIds]

theorem okIds_cons_startFail (o : List StartRpc) :
    okIds (.startFail :: o) = okIds o := by
  simp [okIds]

/-- Main loop invariant argument: if the placement loop of `start_workers`
returns an error, that error is `Other`, the node map of the returned state
is the pre-loop node map `s0n` (every slot taken in this call was released
before the error propagated), old worker entries survive untouched, and
every new worker entry is `running` for the requested job and run. -/
theorem startLoop_error_spec (now : Nat) (req : StartPipelineReq)
    (s0n : AList NodeStatus) (s0w : AList NodeWorker) :
    ∀ (fuel : Nat) (oracle : List StartRpc) (to_schedule : Nat)
      (assigned : List (Nat × Nat × Nat)) (s : NodeSchedulerState)
      (e : SchedulerError) (s2 : NodeSchedulerState),
      startLoop now req fuel oracle to_schedule assigned s = some (.error e, s2) →
      releaseAssigned assigned s.nodes = some s0n →
      (okIds oracle).Nodup →
      (∀ w ∈ okIds oracle, ∀ p ∈ s0n, alLookup p.2.scheduled_slots w = none) →
      (∀ w ∈ okIds oracle, alLookup s0w w = none) →
      (∀ y ∈ assigned, y.2.1 ∉ okIds oracle) →
      (∀ wid nw, alLookup s0w wid = some nw → alLookup s.workers wid = some nw) →
      (∀ wid nw, alLookup s.workers wid = some nw →
          alLookup s0w wid = some nw ∨
          (nw.running = true ∧ nw.job_id = req.job_id ∧ nw.run_id = req.run_id)) →
      (∃ msg, e = SchedulerError.Other msg) ∧ s2.nodes = s0n ∧
      (∀ wid nw, alLookup s0w wid = some nw → alLookup s2.workers wid = some nw) ∧
      (∀ wid nw, alLookup s2.workers wid = some nw →
          alLookup s0w wid = some nw ∨
          (nw.running = true ∧ nw.job_id = req.job_id ∧ nw.run_id = req.run_id)) := by
  intro fuel
  induction fuel with
  | zero =>
    intro oracle to_schedule assigned s e s2 hres hInv hNd hFr hFw hDisj hOld hNew
    cases to_schedule with
    | zero => simp [startLoop] at hres
    | succ t => simp [startLoop] at hres
  | succ fuel ih =>
    intro oracle to_schedule assigned s e s2 hres hInv hNd hFr hFw hDisj hOld hNew
    cases to_schedule with
    | zero => simp [startLoop] at hres
    | succ t =>
      rw [startLoop] at hres
      cases hpick : pickNode s.nodes now with
      | none => rw [hpick] at hres; simp at hres
      | some node =>
        rw [hpick] at hres
        cases oracle with
        | nil => simp at hres
        | cons r oracle2 =>
          cases r with
          | connectFail =>
            simp only [] at hres
            rw [hInv] at hres
            simp only [Option.some.injEq, Prod.mk.injEq, Except.error.injEq] at hres
            obtain ⟨he, hs2⟩ := hres
            subst hs2
            refine ⟨⟨"Failed to connect to node " ++ node.addr, he.symm⟩, rfl, ?_, ?_⟩
            · intro wid nw h
              exact hOld wid nw h
            · intro wid nw h
              exact hNew wid nw h
          | startFail =>
            simp only [] at hres
            rw [hInv] at hres
            simp only [Option.some.injEq, Prod.mk.injEq, Except.error.injEq] at hres
            obtain ⟨he, hs2⟩ := hres
            subst hs2
            refine ⟨⟨"Failed to start worker on node " ++ node.addr, he.symm⟩, rfl, ?_, ?_⟩
            · intro wid nw h
              exact hOld wid nw h
            · intro wid nw h
              exact hNew wid nw h
          | ok wid =>
            simp only [] at hres
            cases htk : takeOne (node.id, wid, min node.free_slots (t + 1)) s.nodes with
            | none => rw [htk] at hres; simp at hres
            | some nodes2 =>
              rw [htk] at hres
              rw [okIds_cons_ok] at hNd hFr hFw hDisj
              have hwmem : wid ∈ wid :: okIds oracle2 := List.mem_cons_self _ _
              have hdisj1 : ∀ y ∈ assigned,
                  y.2.1 ≠ (node.id, wid, min node.free_slots (t + 1)).2.1 := by
                intro y hy
                have := hDisj y hy
                simp only [List.mem_cons] at this
                intro hcon
                exact this (Or.inl hcon)
              obtain ⟨N2, hrelN2, htakeN2⟩ :=
                releaseAssigned_after_takeOne assigned _ s.nodes nodes2 s0n htk hInv hdisj1
              have hfreshTake : ∀ n, alLookup s0n
                  (node.id, wid, min node.free_slots (t + 1)).1 = some n →
                  alLookup n.scheduled_slots
                    (node.id, wid, min node.free_slots (t + 1)).2.1 = none := by
                intro n hn
                exact hFr wid hwmem (node.id, n) (alLookup_mem s0n node.id n hn)
              have hundo := releaseOne_takeOne_id _ s0n N2 htakeN2 hfreshTake
              have hInv2 : releaseAssigned
                  (assigned ++ [(node.id, wid, min node.free_slots (t + 1))])
                  nodes2 = some s0n := by
                rw [releaseAssigned_append, hrelN2]
                exact hundo
              apply ih oracle2 (t + 1 - min node.free_slots (t + 1))
                (assigned ++ [(node.id, wid, min node.free_slots (t + 1))])
                _ e s2 hres hInv2 (List.Nodup.of_cons hNd)
              · intro w hw p hp
                exact hFr w (List.mem_cons_of_mem _ hw) p hp
              · intro w hw
                exact hFw w (List.mem_cons_of_mem _ hw)
              · intro y hy
                rcases List.mem_append.1 hy with hyo | hyx
                · have := hDisj y hyo
                  simp only [List.mem_cons] at this
                  intro hcon
                  exact this (Or.inr hcon)
                · simp at hyx
                  rw [hyx]
                  simp only []
                  exact (List.nodup_cons.1 hNd).1
              · intro wid0 nw h
                have hne : wid0 ≠ wid := by
                  intro hcon
                  rw [hcon] at h
                  rw [hFw wid hwmem] at h
                  exact Option.noConfusion h
                simp only []
                rw [alLookup_alInsert_ne _ _ _ _ (fun hc => hne hc.symm)]
                exact hOld wid0 nw h
              · intro wid0 nw h
                simp only [] at h
                by_cases hc : wid0 = wid
                · subst hc
                  rw [alLookup_alInsert_self] at h
                  injection h with h
                  right
                  rw [← h]
                  exact ⟨rfl, rfl, rfl⟩
                · rw [alLookup_alInsert_ne _ _ _ _ (fun hcc => hc hcc.symm)] at h
                  exact hNew wid0 nw h

theorem start_workers_loop_eq (now : Nat) (req : StartPipelineReq)
    (oracle : List StartRpc) (s : NodeSchedulerState)
    (hcap : ¬ sumFree ((s.expire_nodes (now - 30)).nodes) < req.slots) :
    start_workers now req true oracle s =
      startLoop now req req.slots oracle req.slots [] (s.expire_nodes (now - 30)) := by
  rw [start_workers]
  simp [hcap]

/-- C2: when any RPC of a `start_workers` call fails (at connect time or
during the `StartWorker` stream), the call returns `SchedulerError::Other`
and every slot taken during the call has been released: surviving nodes in
the post-call state carry exactly their pre-call `free_slots` and
`scheduled_slots` (expired nodes aside, which the call removes before
placement). Worker-id freshness reflects that node agents allocate ids the
controller has never seen. -/
theorem c2_rpc_failure_rollback (now : Nat) (req : StartPipelineReq)
    (oracle : List StartRpc) (s s2 : NodeSchedulerState) (e : SchedulerError)
    (hnd : (s.nodes.map Prod.fst).Nodup)
    (hNodupIds : (okIds oracle).Nodup)
    (hFresh : ∀ w ∈ okIds oracle, ∀ p ∈ s.nodes, alLookup p.2.scheduled_slots w = none)
    (hFreshW : ∀ w ∈ okIds oracle, alLookup s.workers w = none)
    (hcap : ¬ sumFree ((s.expire_nodes (now - 30)).nodes) < req.slots)
    (hres : start_workers now req true oracle s = some (.error e, s2)) :
    (∃ msg, e = SchedulerError.Other msg) ∧
    (∀ id n2, alLookup s2.nodes id = some n2 → alLookup s.nodes id = some n2) ∧
    (∀ id n, alLookup s.nodes id = some n → now - 30 ≤ n.last_heartbeat →
        alLookup s2.nodes id = some n) := by
  rw [start_workers_loop_eq now req oracle s hcap] at hres
  have hspec := startLoop_error_spec now req ((s.expire_nodes (now - 30)).nodes)
    s.workers req.slots oracle req.slots [] (s.expire_nodes (now - 30)) e s2 hres
    rfl hNodupIds
    (fun w hw p hp => hFresh w hw p (List.mem_of_mem_filter hp))
    hFreshW (by simp)
    (fun _ _ h => h)
    (fun _ _ h => Or.inl h)
  obtain ⟨hOther, hnodes, _, _⟩ := hspec
  refine ⟨hOther, ?_, ?_⟩
  · intro id n2 h
    rw [hnodes] at h
    exact alLookup_filter_of_nodup s.nodes _ id n2 hnd h
  · intro id n h hhb
    rw [hnodes]
    exact alLookup_filter_of_pred s.nodes _ id n h (by simpa using hhb)

theorem mem_workers_for_job_of_lookup (s : NodeSchedulerState) (jid : String)
    (wid : Nat) (w : NodeWorker) (h : alLookup s.workers wid = some w)
    (hjob : w.job_id = jid) (hrun : w.running = true) :
    wid ∈ workers_for_job s jid none := by
  obtain ⟨nodes, workers⟩ := s
  simp only [workers_for_job]
  simp only [] at h
  induction workers with
  | nil => simp [alLookup] at h
  | cons x rest ih =>
    by_cases hx : x.1 = wid
    · simp only [alLookup, hx, if_pos rfl] at h
      injection h with h
      have hkeep : (x.2.job_id == jid && x.2.running && true) = true := by
        rw [h, hjob, hrun]
        simp
      rw [List.filter_cons_of_pos (by simpa using hkeep)]
      simp [hx]
    · simp [alLookup, hx] at h
      have hmem := ih h
      by_cases hkeep : (x.2.job_id == jid && x.2.running && true) = true
      · rw [List.filter_cons_of_pos (by simpa using hkeep)]
        simp only [List.map_cons, List.mem_cons]
        right
        exact hmem
      · rw [List.filter_cons_of_neg (by simpa using hkeep)]
        exact hmem

/-- C8: when `start_workers` fails after some workers were already started,
the rollback releases their slots but leaves their entries in the workers
map: pre-call workers survive untouched, and every worker entry added by the
call is recorded with `running = true` for the requested job and run, so a
subsequent `workers_for_job` for that job still returns it. -/
theorem c8_rollback_keeps_workers (now : Nat) (req : StartPipelineReq)
    (oracle : List StartRpc) (s s2 : NodeSchedulerState) (e : SchedulerError)
    (hNodupIds : (okIds oracle).Nodup)
    (hFresh : ∀ w ∈ okIds oracle, ∀ p ∈ s.nodes, alLookup p.2.scheduled_slots w = none)
    (hFreshW : ∀ w ∈ okIds oracle, alLookup s.workers w = none)
    (hcap : ¬ sumFree ((s.expire_nodes (now - 30)).nodes) < req.slots)
    (hres : start_workers now req true oracle s = some (.error e, s2)) :
    (∀ wid nw, alLookup s.workers wid = some nw → alLookup s2.workers wid = some nw) ∧
    (∀ wid nw, alLookup s2.workers wid = some nw → alLookup s.workers wid = none →
        nw.running = true ∧ nw.job_id = req.job_id ∧ nw.run_id = req.run_id ∧
        wid ∈ workers_for_job s2 req.job_id none) := by
  rw [start_workers_loop_eq now req oracle s hcap] at hres
  have hspec := startLoop_error_spec now req ((s.expire_nodes (now - 30)).nodes)
    s.workers req.slots oracle req.slots [] (s.expire_nodes (now - 30)) e s2 hres
    rfl hNodupIds
    (fun w hw p hp => hFresh w hw p (List.mem_of_mem_filter hp))
    hFreshW (by simp)
    (fun _ _ h => h)
    (fun _ _ h => Or.inl h)
  obtain ⟨_, _, hOld, hNew⟩ := hspec
  refine ⟨hOld, ?_⟩
  intro wid nw h hnone
  rcases hNew wid nw h with hc | hc
  · rw [hnone] at hc
    exact Option.noConfusion hc
  · obtain ⟨hrun, hjob, hrid⟩ := hc
    exact ⟨hrun, hjob, hrid,
      mem_workers_for_job_of_lookup s2 req.job_id wid nw h hjob hrun⟩

/-- Spec scenario 4: two 16-slot nodes, failure on the second placement. -/
def c2State : NodeSchedulerState :=
  { nodes := [(1, { id := 1, free_slots := 16, scheduled_slots := [],
                    addr := "node-1:5000", last_heartbeat := 100 }),
              (2, { id := 2, free_slots := 16, scheduled_slots := [],
                    addr := "node-2:5000", last_heartbeat := 100 })],
    workers := [] }

def c2Req : StartPipelineReq :=
  { name := "p", pipeline_path := "s3://p", wasm_path := "s3://w",
    job_id := "job_c2", hash := "h", run_id := 7, slots := 24, env_vars := [] }

/-- The state after `start_workers` fails on the second node: node slots
restored, the first started worker still recorded. -/
def c2Post : NodeSchedulerState :=
  { nodes := c2State.nodes,
    workers := [(100, { job_id := "job_c2", node_id := 2, run_id := 7,
                        running := true })] }

theorem c2_witness :
    start_workers 100 c2Req true [.ok 100, .connectFail] c2State =
      some (.error (.Other "Failed to connect to node node-1:5000"), c2Post) ∧
    (∃ msg, (SchedulerError.Other "Failed to connect to node node-1:5000") =
        SchedulerError.Other msg) ∧
    (∀ id n2, alLookup c2Post.nodes id = some n2 → alLookup c2State.nodes id = some n2) ∧
    (∀ id n, alLookup c2State.nodes id = some n → 100 - 30 ≤ n.last_heartbeat →
        alLookup c2Post.nodes id = some n) := by
  refine ⟨by rfl, ?_⟩
  exact c2_rpc_failure_rollback 100 c2Req [.ok 100, .connectFail] c2State c2Post
    (.Other "Failed to connect to node node-1:5000")
    (by decide) (by decide) (by decide) (by decide) (by decide) (by rfl)

theorem c8_witness :
    alLookup c2Post.workers 100 =
      some { job_id := "job_c2", node_id := 2, run_id := 7, running := true } ∧
    alLookup c2State.workers 100 = none ∧
    100 ∈ workers_for_job c2Post "job_c2" none := by
  have h := c8_rollback_keeps_workers 100 c2Req [.ok 100, .connectFail] c2State c2Post
    (.Other "Failed to connect to node node-1:5000")
    (by decide) (by decide) (by decide) (by decide) (by rfl)
  refine ⟨by rfl, by rfl, ?_⟩
  exact (h.2 100 { job_id := "job_c2", node_id := 2, run_id := 7, running := true }
    (by rfl) (by rfl)).2.2.2

/-! ## C4: slot-accounting invariant `free_slots + Σ scheduled_slots = capacity` -/

/-- The conserved quantity of a node: free slots plus all scheduled slots. -/
def sumCap (n : NodeStatus) : Nat :=
  n.free_slots + alSum n.scheduled_slots

theorem sumCap_new (id slots : Nat) (addr : String) (now : Nat) :
    sumCap (NodeStatus.new id slots addr now) = slots := by
  simp [sumCap, NodeStatus.new, alSum]

theorem release_slots_sumCap (n n2 : NodeStatus) (w sl : Nat)
    (h : n.release_slots w sl = some n2) : sumCap n2 = sumCap n := by
  simp only [NodeStatus.release_slots] at h
  cases hl : alLookup n.scheduled_slots w with
  | none =>
    rw [hl] at h
    injection h with h
    rw [← h]
  | some freed =>
    rw [hl] at h
    by_cases hf : freed = sl
    · subst hf
      simp at h
      rw [← h]
      simp only [sumCap]
      have := alSum_alErase_of_lookup_some n.scheduled_slots w freed hl
      omega
    · simp [hf] at h

theorem take_slots_sumCap (n : NodeStatus) (w sl : Nat)
    (hfr : alLookup n.scheduled_slots w = none) (hle : sl ≤ n.free_slots) :
    sumCap (takenNode n w sl) = sumCap n := by
  simp only [sumCap, takenNode]
  rw [alSum_alInsert_of_lookup_none n.scheduled_slots w sl hfr]
  omega

theorem releaseOne_sumCap (x : Nat × Nat × Nat) (M P : AList NodeStatus)
    (h : releaseOne x M = some P) :
    ∀ id n2, alLookup P id = some n2 →
      ∃ n1, alLookup M id = some n1 ∧ sumCap n2 = sumCap n1 := by
  obtain ⟨nid, wid, sl⟩ := x
  intro id n2 hl2
  obtain ⟨m, hlm, hcase⟩ := releaseOne_elim nid wid sl M P h
  by_cases hid : id = nid
  · subst hid
    cases hcase with
    | inl hc =>
      rw [hc.2, alLookup_alInsert_self] at hl2
      injection hl2 with hl2
      exact ⟨m, hlm, by rw [← hl2]⟩
    | inr hc =>
      rw [hc.2, alLookup_alInsert_self] at hl2
      injection hl2 with hl2
      refine ⟨m, hlm, ?_⟩
      rw [← hl2]
      simp only [releasedNode, sumCap]
      have := alSum_alErase_of_lookup_some m.scheduled_slots wid sl hc.1
      simp only [sumCap] at this ⊢
      omega
  · cases hcase with
    | inl hc =>
      rw [hc.2, alLookup_alInsert_ne _ _ _ _ (fun hcc => hid hcc.symm)] at hl2
      exact ⟨n2, hl2, rfl⟩
    | inr hc =>
      rw [hc.2, alLookup_alInsert_ne _ _ _ _ (fun hcc => hid hcc.symm)] at hl2
      exact ⟨n2, hl2, rfl⟩

theorem releaseAssigned_sumCap (l : List (Nat × Nat × Nat)) :
    ∀ (M P : AList NodeStatus), releaseAssigned l M = some P →
      ∀ id n2, alLookup P id = some n2 →
        ∃ n1, alLookup M id = some n1 ∧ sumCap n2 = sumCap n1 := by
  induction l with
  | nil =>
    intro M P h id n2 hl2
    simp [releaseAssigned] at h
    subst h
    exact ⟨n2, hl2, rfl⟩
  | cons x l ih =>
    intro M P h id n2 hl2
    simp only [releaseAssigned] at h
    cases hx : releaseOne x M with
    | none => rw [hx] at h; simp at h
    | some Q =>
      rw [hx] at h
      obtain ⟨n1, hl1, hc1⟩ := ih Q P h id n2 hl2
      obtain ⟨n0, hl0, hc0⟩ := releaseOne_sumCap x M Q hx id n1 hl1
      exact ⟨n0, hl0, by rw [hc1, hc0]⟩

/-- The placement loop preserves, per surviving node, the quantity
`free_slots + Σ scheduled_slots`, relative to the pre-loop map `s0n`
(whatever the loop's outcome). -/
theorem startLoop_sumCap_spec (now : Nat) (req : StartPipelineReq)
    (s0n : AList NodeStatus) :
    ∀ (fuel : Nat) (oracle : List StartRpc) (to_schedule : Nat)
      (assigned : List (Nat × Nat × Nat)) (s : NodeSchedulerState)
      (r : Except SchedulerError Unit) (s2 : NodeSchedulerState),
      startLoop now req fuel oracle to_schedule assigned s = some (r, s2) →
      (okIds oracle).Nodup →
      (∀ w ∈ okIds oracle, ∀ p ∈ s0n, alLookup p.2.scheduled_slots w = none) →
      (∀ y ∈ assigned, y.2.1 ∉ okIds oracle) →
      (∀ id n2, alLookup s.nodes id = some n2 →
        ∃ n, alLookup s0n id = some n ∧ sumCap n2 = sumCap n ∧
          (∀ w, (alLookup n2.scheduled_slots w).isSome = true →
            (alLookup n.scheduled_slots w).isSome = true ∨
              w ∈ assigned.map (fun y => y.2.1))) →
      (∀ id n2, alLookup s2.nodes id = some n2 →
        ∃ n, alLookup s0n id = some n ∧ sumCap n2 = sumCap n) := by
  intro fuel
  induction fuel with
  | zero =>
    intro oracle to_schedule assigned s r s2 hres hNd hFr hDisj hInv
    cases to_schedule with
    | zero =>
      simp [startLoop] at hres
      obtain ⟨_, hs2⟩ := hres
      subst hs2
      intro id n2 h
      obtain ⟨n, hn, hc, _⟩ := hInv id n2 h
      exact ⟨n, hn, hc⟩
    | succ t => simp [startLoop] at hres
  | succ fuel ih =>
    intro oracle to_schedule assigned s r s2 hres hNd hFr hDisj hInv
    cases to_schedule with
    | zero =>
      simp [startLoop] at hres
      obtain ⟨_, hs2⟩ := hres
      subst hs2
      intro id n2 h
      obtain ⟨n, hn, hc, _⟩ := hInv id n2 h
      exact ⟨n, hn, hc⟩
    | succ t =>
      rw [startLoop] at hres
      cases hpick : pickNode s.nodes now with
      | none => rw [hpick] at hres; simp at hres
      | some node =>
        rw [hpick] at hres
        cases oracle with
        | nil => simp at hres
        | cons rpc oracle2 =>
          cases rpc with
          | connectFail =>
            simp only [] at hres
            cases hrel : releaseAssigned assigned s.nodes with
            | none => rw [hrel] at hres; simp at hres
            | some nodes2 =>
              rw [hrel] at hres
              simp only [Option.some.injEq, Prod.mk.injEq] at hres
              obtain ⟨_, hs2⟩ := hres
              subst hs2
              intro id n2 h
              simp only [] at h
              obtain ⟨n1, hl1, hc1⟩ := releaseAssigned_sumCap assigned s.nodes nodes2 hrel id n2 h
              obtain ⟨n, hn, hc, _⟩ := hInv id n1 hl1
              exact ⟨n, hn, by rw [hc1, hc]⟩
          | startFail =>
            simp only [] at hres
            cases hrel : releaseAssigned assigned s.nodes with
            | none => rw [hrel] at hres; simp at hres
            | some nodes2 =>
              rw [hrel] at hres
              simp only [Option.some.injEq, Prod.mk.injEq] at hres
              obtain ⟨_, hs2⟩ := hres
              subst hs2
              intro id n2 h
              simp only [] at h
              obtain ⟨n1, hl1, hc1⟩ := releaseAssigned_sumCap assigned s.nodes nodes2 hrel id n2 h
              obtain ⟨n, hn, hc, _⟩ := hInv id n1 hl1
              exact ⟨n, hn, by rw [hc1, hc]⟩
          | ok wid =>
            simp only [] at hres
            cases htk : takeOne (node.id, wid, min node.free_slots (t + 1)) s.nodes with
            | none => rw [htk] at hres; simp at hres
            | some nodes2 =>
              rw [htk] at hres
              rw [okIds_cons_ok] at hNd hFr hDisj
              obtain ⟨nn, hln, hle, hnodes2⟩ := takeOne_elim _ _ _ _ _ htk
              have hwmem : wid ∈ wid :: okIds oracle2 := List.mem_cons_self _ _
              -- the worker being committed is not already scheduled on the node
              have hfreshn : alLookup nn.scheduled_slots wid = none := by
                obtain ⟨n, hn, _, hkeys⟩ := hInv node.id nn hln
                cases hsw : alLookup nn.scheduled_slots wid with
                | none => rfl
                | some v =>
                  exfalso
                  have : (alLookup nn.scheduled_slots wid).isSome = true := by
                    rw [hsw]; rfl
                  rcases hkeys wid this with hin | hin
                  · cases hsv : alLookup n.scheduled_slots wid with
                    | none => rw [hsv] at hin; exact Bool.noConfusion hin
                    | some v2 =>
                      exact Option.noConfusion
                        ((hFr wid hwmem (node.id, n) (alLookup_mem s0n node.id n hn)).symm.trans hsv)
                  · simp only [List.mem_map] at hin
                    obtain ⟨y, hy, hyw⟩ := hin
                    exact (hDisj y hy) (by rw [hyw]; exact hwmem)
              apply ih oracle2 (t + 1 - min node.free_slots (t + 1))
                (assigned ++ [(node.id, wid, min node.free_slots (t + 1))])
                _ r s2 hres (List.Nodup.of_cons hNd)
                (fun w hw p hp => hFr w (List.mem_cons_of_mem _ hw) p hp)
              · intro y hy
                rcases List.mem_append.1 hy with hyo | hyx
                · have := hDisj y hyo
                  simp only [List.mem_cons] at this
                  intro hcon
                  exact this (Or.inr hcon)
                · simp at hyx
                  rw [hyx]
                  simp only []
                  exact (List.nodup_cons.1 hNd).1
              · intro id n2 h
                simp only [] at h
                rw [hnodes2] at h
                by_cases hid : id = node.id
                · subst hid
                  rw [alLookup_alInsert_self] at h
                  injection h with h
                  obtain ⟨n, hn, hc, hkeys⟩ := hInv node.id nn hln
                  refine ⟨n, hn, ?_, ?_⟩
                  · rw [← h]
                    rw [take_slots_sumCap nn wid _ hfreshn hle, hc]
                  · intro w hw
                    rw [← h] at hw
                    simp only [takenNode] at hw
                    rcases alLookup_isSome_alInsert nn.scheduled_slots wid w _ hw with hin | hin
                    · rcases hkeys w hin with hk | hk
                      · exact Or.inl hk
                      · right
                        rw [List.map_append]
                        exact List.mem_append_left _ hk
                    · right
                      rw [List.map_append]
                      apply List.mem_append_right
                      simp [hin]
                · rw [alLookup_alInsert_ne _ _ _ _ (fun hcc => hid hcc.symm)] at h
                  obtain ⟨n, hn, hc, hkeys⟩ := hInv id n2 h
                  refine ⟨n, hn, hc, ?_⟩
                  intro w hw
                  rcases hkeys w hw with hk | hk
                  · exact Or.inl hk
                  · right
                    rw [List.map_append]
                    exact List.mem_append_left _ hk

theorem mem_keys_alInsert {β : Type} (l : AList β) (k w : Nat) (v : β) :
    w ∈ (alInsert l k v).map Prod.fst → w ∈ l.map Prod.fst ∨ w = k := by
  induction l with
  | nil =>
    intro h
    right
    simpa [alInsert] using h
  | cons p rest ih =>
    intro h
    obtain ⟨p1, p2⟩ := p
    by_cases hp : p1 = k
    · rw [alInsert, if_pos hp, List.map_cons, List.mem_cons] at h
      rcases h with h | h
      · exact Or.inr h
      · left
        rw [List.map_cons, List.mem_cons]
        exact Or.inr h
    · rw [alInsert, if_neg hp, List.map_cons, List.mem_cons] at h
      rcases h with h | h
      · left
        rw [List.map_cons, List.mem_cons]
        exact Or.inl h
      · rcases ih h with h2 | h2
        · left
          rw [List.map_cons, List.mem_cons]
          exact Or.inr h2
        · exact Or.inr h2

theorem nodupKeys_alInsert {β : Type} (l : AList β) (k : Nat) (v : β)
    (h : (l.map Prod.fst).Nodup) : ((alInsert l k v).map Prod.fst).Nodup := by
  induction l with
  | nil => simp [alInsert]
  | cons p rest ih =>
    obtain ⟨p1, p2⟩ := p
    rw [List.map_cons, List.nodup_cons] at h
    by_cases hp : p1 = k
    · rw [alInsert, if_pos hp, List.map_cons, List.nodup_cons]
      rw [hp] at h
      exact ⟨h.1, h.2⟩
    · rw [alInsert, if_neg hp, List.map_cons, List.nodup_cons]
      refine ⟨?_, ih h.2⟩
      intro hmem
      rcases mem_keys_alInsert rest k p1 v hmem with h2 | h2
      · exact h.1 h2
      · exact hp h2

theorem nodupKeys_filter {β : Type} (l : AList β) (p : Nat × β → Bool)
    (h : (l.map Prod.fst).Nodup) : ((l.filter p).map Prod.fst).Nodup :=
  List.Sublist.nodup (List.Sublist.map Prod.fst (List.filter_sublist l)) h

theorem releaseAssigned_nodupKeys (l : List (Nat × Nat × Nat)) :
    ∀ (M P : AList NodeStatus), releaseAssigned l M = some P →
      (M.map Prod.fst).Nodup → (P.map Prod.fst).Nodup := by
  induction l with
  | nil =>
    intro M P h hnd
    simp [releaseAssigned] at h
    rwa [← h]
  | cons x l ih =>
    intro M P h hnd
    simp only [releaseAssigned] at h
    cases hx : releaseOne x M with
    | none => rw [hx] at h; simp at h
    | some Q =>
      rw [hx] at h
      apply ih Q P h
      obtain ⟨nid, wid, sl⟩ := x
      obtain ⟨m, _, hcase⟩ := releaseOne_elim nid wid sl M Q hx
      rcases hcase with ⟨_, hQ⟩ | ⟨_, hQ⟩ <;>
        (rw [hQ]; exact nodupKeys_alInsert M nid _ hnd)

theorem startLoop_nodupKeys (now : Nat) (req : StartPipelineReq) :
    ∀ (fuel : Nat) (oracle : List StartRpc) (to_schedule : Nat)
      (assigned : List (Nat × Nat × Nat)) (s : NodeSchedulerState)
      (r : Except SchedulerError Unit) (s2 : NodeSchedulerState),
      startLoop now req fuel oracle to_schedule assigned s = some (r, s2) →
      (s.nodes.map Prod.fst).Nodup → (s2.nodes.map Prod.fst).Nodup := by
  intro fuel
  induction fuel with
  | zero =>
    intro oracle to_schedule assigned s r s2 hres hnd
    cases to_schedule with
    | zero =>
      simp [startLoop] at hres
      rwa [← hres.2]
    | succ t => simp [startLoop] at hres
  | succ fuel ih =>
    intro oracle to_schedule assigned s r s2 hres hnd
    cases to_schedule with
    | zero =>
      simp [startLoop] at hres
      rwa [← hres.2]
    | succ t =>
      rw [startLoop] at hres
      cases hpick : pickNode s.nodes now with
      | none => rw [hpick] at hres; simp at hres
      | some node =>
        rw [hpick] at hres
        cases oracle with
        | nil => simp at hres
        | cons rpc oracle2 =>
          cases rpc with
          | connectFail =>
            simp only [] at hres
            cases hrel : releaseAssigned assigned s.nodes with
            | none => rw [hrel] at hres; simp at hres
            | some nodes2 =>
              rw [hrel] at hres
              simp only [Option.some.injEq, Prod.mk.injEq] at hres
              rw [← hres.2]
              exact releaseAssigned_nodupKeys assigned s.nodes nodes2 hrel hnd
          | startFail =>
            simp only [] at hres
            cases hrel : releaseAssigned assigned s.nodes with
            | none => rw [hrel] at hres; simp at hres
            | some nodes2 =>
              rw [hrel] at hres
              simp only [Option.some.injEq, Prod.mk.injEq] at hres
              rw [← hres.2]
              exact releaseAssigned_nodupKeys assigned s.nodes nodes2 hrel hnd
          | ok wid =>
            simp only [] at hres
            cases htk : takeOne (node.id, wid, min node.free_slots (t + 1)) s.nodes with
            | none => rw [htk] at hres; simp at hres
            | some nodes2 =>
              rw [htk] at hres
              apply ih _ _ _ _ r s2 hres
              obtain ⟨nn, _, _, hnodes2⟩ := takeOne_elim _ _ _ _ _ htk
              rw [hnodes2]
              exact nodupKeys_alInsert s.nodes node.id _ hnd

theorem stopWorkersGo_nodes (job_id : String) (force : Bool)
    (oracle : Nat → StopRpc) :
    ∀ (l : List Nat) (k : Nat) (s : NodeSchedulerState),
      (stopWorkersGo job_id force oracle l k s).2.nodes = s.nodes := by
  intro l
  induction l with
  | nil => intro k s; rfl
  | cons wid rest ih =>
    intro k s
    rw [stopWorkersGo]
    cases h : stop_worker s job_id wid force (oracle k) with
    | error msg => rfl
    | ok o =>
      cases o with
      | none => rfl
      | some w =>
        simp only []
        cases hw : alLookup s.workers w with
        | none => exact ih (k + 1) s
        | some nw => exact ih (k + 1) _

/-! ### The scheduler operations of the claim, as a transition system -/

/-- One captured call against the node scheduler, with its RPC oracle. -/
inductive SchedOp where
  | register (node_id slots : Nat) (addr : String) (now : Nat)
  | start (now : Nat) (req : StartPipelineReq) (binariesOk : Bool) (oracle : List StartRpc)
  | finished (node_id worker_id slots : Nat)
  | stop (job_id : String) (run_id : Option Int) (force : Bool) (oracle : Nat → StopRpc)

/-- The state transition of one operation; `none` models a panic. -/
def SchedOp.step : SchedOp → NodeSchedulerState → Option NodeSchedulerState
  | .register node_id slots addr now, s => some (register_node s node_id slots addr now)
  | .start now req binariesOk oracle, s =>
    (start_workers now req binariesOk oracle s).map (fun r => r.2)
  | .finished node_id worker_id slots, s => worker_finished s node_id worker_id slots
  | .stop job_id run_id force oracle, s =>
    some (stop_workers s job_id run_id force oracle).2

def runOps : List SchedOp → NodeSchedulerState → Option NodeSchedulerState
  | [], s => some s
  | op :: ops, s =>
    match op.step s with
    | none => none
    | some s2 => runOps ops s2

/-- Worker ids handed out by a start call's oracle are pairwise distinct and
unscheduled anywhere in the current state (node agents allocate fresh ids). -/
def freshStart (oracle : List StartRpc) (s : NodeSchedulerState) : Bool :=
  decide (okIds oracle).Nodup &&
  (okIds oracle).all (fun w =>
    s.nodes.all (fun p => (alLookup p.2.scheduled_slots w).isNone))

def freshStep : SchedOp → NodeSchedulerState → Bool
  | .start _ _ _ oracle, s => freshStart oracle s
  | _, _ => true

/-- All worker ids along a run are fresh at the state where they appear. -/
def freshAlong : List SchedOp → NodeSchedulerState → Bool
  | [], _ => true
  | op :: ops, s =>
    freshStep op s &&
      match op.step s with
      | none => true
      | some s2 => freshAlong ops s2

/-- The node survives (is present after) every step of the run. -/
def presentAlong (id : Nat) : List SchedOp → NodeSchedulerState → Bool
  | [], _ => true
  | op :: ops, s =>
    match op.step s with
    | none => true
    | some s2 => (alLookup s2.nodes id).isSome && presentAlong id ops s2

theorem freshStart_spec (oracle : List StartRpc) (s : NodeSchedulerState)
    (h : freshStart oracle s = true) :
    (okIds oracle).Nodup ∧
    (∀ w ∈ okIds oracle, ∀ p ∈ s.nodes, alLookup p.2.scheduled_slots w = none) := by
  rw [freshStart, Bool.and_eq_true] at h
  constructor
  · exact of_decide_eq_true h.1
  · intro w hw p hp
    have h2 := List.all_eq_true.1 h.2 w hw
    have h3 := List.all_eq_true.1 h2 p hp
    exact Option.isNone_iff_eq_none.1 h3

/-- Every one of the four scheduler operations preserves
`free_slots + Σ scheduled_slots` for each node present before and after. -/
theorem step_preserves_sumCap (op : SchedOp) (s s2 : NodeSchedulerState)
    (hstep : op.step s = some s2)
    (hfresh : freshStep op s = true)
    (hnd : (s.nodes.map Prod.fst).Nodup)
    (id : Nat) (n n2 : NodeStatus)
    (hn : alLookup s.nodes id = some n) (hn2 : alLookup s2.nodes id = some n2) :
    sumCap n2 = sumCap n := by
  cases op with
  | register nid slots addr now =>
    simp only [SchedOp.step] at hstep
    injection hstep with hstep
    rw [← hstep, register_node] at hn2
    cases hl : alLookup s.nodes nid with
    | some m =>
      rw [hl] at hn2
      rw [hn] at hn2
      injection hn2 with hn2
      rw [hn2]
    | none =>
      rw [hl] at hn2
      by_cases hid : id = nid
      · rw [hid, hl] at hn
        exact Option.noConfusion hn
      · simp only [] at hn2
        rw [alLookup_alInsert_ne _ _ _ _ (fun hcc => hid hcc.symm)] at hn2
        rw [hn] at hn2
        injection hn2 with hn2
        rw [hn2]
  | start now req binariesOk oracle =>
    simp only [SchedOp.step] at hstep
    cases hsw : start_workers now req binariesOk oracle s with
    | none => rw [hsw] at hstep; exact Option.noConfusion hstep
    | some rp =>
      rw [hsw] at hstep
      injection hstep with hstep
      obtain ⟨r, st⟩ := rp
      simp only [] at hstep
      subst hstep
      cases binariesOk with
      | false =>
        rw [start_workers] at hsw
        simp at hsw
        rw [← hsw.2] at hn2
        rw [hn] at hn2
        injection hn2 with hn2
        rw [hn2]
      | true =>
        obtain ⟨hNdIds, hFr⟩ := freshStart_spec oracle s hfresh
        rw [start_workers] at hsw
        simp only [Bool.true_eq_false, if_false, if_neg] at hsw
        by_cases hcap : sumFree ((s.expire_nodes (now - 30)).nodes) < req.slots
        · rw [if_pos hcap] at hsw
          injection hsw with hsw
          have hst : s.expire_nodes (now - 30) = st := congrArg Prod.snd hsw
          rw [← hst] at hn2
          have := alLookup_filter_of_nodup s.nodes _ id n2 hnd hn2
          rw [hn] at this
          injection this with this
          rw [this]
        · rw [if_neg hcap] at hsw
          have hsum := startLoop_sumCap_spec now req ((s.expire_nodes (now - 30)).nodes)
            req.slots oracle req.slots [] (s.expire_nodes (now - 30)) r st hsw
            hNdIds
            (fun w hw p hp => hFr w hw p (List.mem_of_mem_filter hp))
            (by simp)
            (fun id0 n0 h0 => ⟨n0, h0, rfl, fun w hw => Or.inl hw⟩)
          obtain ⟨nE, hlE, hcE⟩ := hsum id n2 hn2
          have := alLookup_filter_of_nodup s.nodes _ id nE hnd hlE
          rw [hn] at this
          injection this with this
          rw [hcE, this]
  | finished nid wid slots =>
    simp only [SchedOp.step, worker_finished] at hstep
    cases hl : alLookup s.nodes nid with
    | none =>
      rw [hl] at hstep
      injection hstep with hstep
      rw [← hstep] at hn2
      simp only [] at hn2
      rw [hn] at hn2
      injection hn2 with hn2
      rw [hn2]
    | some m =>
      rw [hl] at hstep
      simp only [] at hstep
      cases hr : m.release_slots wid slots with
      | none => rw [hr] at hstep; exact Option.noConfusion hstep
      | some m2 =>
        rw [hr] at hstep
        simp only [Option.map] at hstep
        injection hstep with hstep
        rw [← hstep] at hn2
        simp only [] at hn2
        by_cases hid : id = nid
        · rw [hid] at hn hn2
          rw [alLookup_alInsert_self] at hn2
          rw [hl] at hn
          injection hn with hn
          injection hn2 with hn2
          rw [← hn, ← hn2]
          exact release_slots_sumCap m m2 wid slots hr
        · rw [alLookup_alInsert_ne _ _ _ _ (fun hcc => hid hcc.symm)] at hn2
          rw [hn] at hn2
          injection hn2 with hn2
          rw [hn2]
  | stop job_id run_id force oracle =>
    simp only [SchedOp.step] at hstep
    injection hstep with hstep
    rw [← hstep] at hn2
    rw [stop_workers, stopWorkersGo_nodes] at hn2
    rw [hn] at hn2
    injection hn2 with hn2
    rw [hn2]

/-- Every operation preserves key-distinctness of the node map. -/
theorem step_preserves_nodupKeys (op : SchedOp) (s s2 : NodeSchedulerState)
    (hstep : op.step s = some s2)
    (hnd : (s.nodes.map Prod.fst).Nodup) :
    (s2.nodes.map Prod.fst).Nodup := by
  cases op with
  | register nid slots addr now =>
    simp only [SchedOp.step] at hstep
    injection hstep with hstep
    rw [← hstep, register_node]
    cases hl : alLookup s.nodes nid with
    | some m => exact hnd
    | none => exact nodupKeys_alInsert s.nodes nid _ hnd
  | start now req binariesOk oracle =>
    simp only [SchedOp.step] at hstep
    cases hsw : start_workers now req binariesOk oracle s with
    | none => rw [hsw] at hstep; exact Option.noConfusion hstep
    | some rp =>
      rw [hsw] at hstep
      injection hstep with hstep
      obtain ⟨r, st⟩ := rp
      simp only [] at hstep
      subst hstep
      cases binariesOk with
      | false =>
        rw [start_workers] at hsw
        simp at hsw
        rw [← hsw.2]
        exact hnd
      | true =>
        rw [start_workers] at hsw
        simp only [Bool.true_eq_false, if_false, if_neg] at hsw
        by_cases hcap : sumFree ((s.expire_nodes (now - 30)).nodes) < req.slots
        · rw [if_pos hcap] at hsw
          have hst : s.expire_nodes (now - 30) = st := congrArg Prod.snd
            (Option.some.inj hsw)
          rw [← hst]
          exact nodupKeys_filter s.nodes _ hnd
        · rw [if_neg hcap] at hsw
          exact startLoop_nodupKeys now req req.slots oracle req.slots []
            (s.expire_nodes (now - 30)) r st hsw (nodupKeys_filter s.nodes _ hnd)
  | finished nid wid slots =>
    simp only [SchedOp.step, worker_finished] at hstep
    cases hl : alLookup s.nodes nid with
    | none =>
      rw [hl] at hstep
      injection hstep with hstep
      rw [← hstep]
      exact hnd
    | some m =>
      rw [hl] at hstep
      simp only [] at hstep
      cases hr : m.release_slots wid slots with
      | none => rw [hr] at hstep; exact Option.noConfusion hstep
      | some m2 =>
        rw [hr] at hstep
        simp only [Option.map] at hstep
        injection hstep with hstep
        rw [← hstep]
        exact nodupKeys_alInsert s.nodes nid m2 hnd
  | stop job_id run_id force oracle =>
    simp only [SchedOp.step] at hstep
    injection hstep with hstep
    rw [← hstep, stop_workers, stopWorkersGo_nodes]
    exact hnd

/-- C4: slot-accounting invariant. A registered node starts with
`free_slots + Σ scheduled_slots` equal to its registered capacity
(`NodeStatus::new` makes every capacity slot free and schedules nothing),
and that quantity is preserved for every surviving node across any sequence
of `register_node`, `start_workers`, `worker_finished` and `stop_workers`
calls — `take_slots` and `release_slots`, the only mutators, each preserve
the sum. Worker ids handed out by node agents are assumed fresh
(`freshAlong`), matching the spec's globally unique `WorkerId`s. -/
theorem c4_slot_accounting :
    (∀ (id slots : Nat) (addr : String) (now : Nat),
        sumCap (NodeStatus.new id slots addr now) = slots) ∧
    (∀ (ops : List SchedOp) (s s2 : NodeSchedulerState),
        runOps ops s = some s2 → freshAlong ops s = true →
        (s.nodes.map Prod.fst).Nodup →
        ∀ id, presentAlong id ops s = true →
        ∀ n n2, alLookup s.nodes id = some n → alLookup s2.nodes id = some n2 →
          sumCap n2 = sumCap n) := by
  constructor
  · exact sumCap_new
  · intro ops
    induction ops with
    | nil =>
      intro s s2 hrun _ _ id _ n n2 hn hn2
      simp [runOps] at hrun
      rw [← hrun] at hn2
      rw [hn] at hn2
      injection hn2 with hn2
      rw [hn2]
    | cons op ops ih =>
      intro s s2 hrun hfresh hnd id hpres n n2 hn hn2
      rw [runOps] at hrun
      cases hstep : op.step s with
      | none => rw [hstep] at hrun; exact Option.noConfusion hrun
      | some s1 =>
        rw [hstep] at hrun
        simp only [freshAlong, hstep, Bool.and_eq_true] at hfresh
        simp only [presentAlong, hstep, Bool.and_eq_true] at hpres
        cases hl1 : alLookup s1.nodes id with
        | none =>
          rw [hl1] at hpres
          simp at hpres
        | some n1 =>
          have h1 : sumCap n1 = sumCap n :=
            step_preserves_sumCap op s s1 hstep hfresh.1 hnd id n n1 hn hl1
          have hnd1 := step_preserves_nodupKeys op s s1 hstep hnd
          have h2 := ih s1 s2 hrun hfresh.2 hnd1 id hpres.2 n1 n2 hl1 hn2
          rw [h2, h1]

def c4State0 : NodeSchedulerState :=
  { nodes := [(1, NodeStatus.new 1 16 "node-1:5000" 100)], workers := [] }

def c4Req : StartPipelineReq :=
  { name := "p", pipeline_path := "s3://p", wasm_path := "s3://w",
    job_id := "job_c4", hash := "h", run_id := 1, slots := 4, env_vars := [] }

def c4Ops : List SchedOp :=
  [ .register 2 8 "node-2:5000" 100,
    .start 100 c4Req true [.ok 100],
    .finished 1 100 4,
    .stop "job_c4" none false (fun _ => .rpcFail) ]

def c4Final : NodeSchedulerState :=
  { nodes := [(1, { id := 1, free_slots := 16, scheduled_slots := [],
                    addr := "node-1:5000", last_heartbeat := 100 }),
              (2, { id := 2, free_slots := 8, scheduled_slots := [],
                    addr := "node-2:5000", last_heartbeat := 100 })],
    workers := [] }

theorem c4_witness :
    sumCap (NodeStatus.new 1 16 "node-1:5000" 100) = 16 ∧
    sumCap { id := 1, free_slots := 16, scheduled_slots := [],
             addr := "node-1:5000", last_heartbeat := 100 } =
      sumCap (NodeStatus.new 1 16 "node-1:5000" 100) := by
  refine ⟨c4_slot_accounting.1 1 16 "node-1:5000" 100, ?_⟩
  exact c4_slot_accounting.2 c4Ops c4State0 c4Final (by rfl) (by rfl) (by decide)
    1 (by rfl) (NodeStatus.new 1 16 "node-1:5000" 100) _ (by rfl) (by rfl)

/-! ## Worker operator runtime (arroyo-macro/src/lib.rs, `impl_stream_node_type`)

The macro synthesizes the per-subtask event loop, `handle_control_message`,
`checkpoint` and `handle_watermark_int`. The embedding below models the
generated code. `CheckpointCounter`, `Context::watermark` and
`ProcessFnUtils::finished_timers` live in the worker crate, which is not
among the excerpted sources; they are modelled from the spec where noted. -/

inductive TaskCheckpointEventType where
  | startedAlignment | startedCheckpointing | finishedOperatorSetup | finishedSync
deriving DecidableEq, Repr

/-- `arroyo_types::CheckpointBarrier`, restricted to the fields the runtime
logic reads: the epoch and the stop flag. -/
structure CheckpointBarrier where
  epoch : Nat
  then_stop : Bool
deriving DecidableEq, Repr

/-- `arroyo_types::Message`. A record carries, as a ghost annotation for
stating the alignment property, the checkpoint epoch it belongs to (records
between barrier `E-1` and barrier `E` belong to epoch `E`). -/
inductive WMessage where
  | record (epoch : Nat)
  | barrier (b : CheckpointBarrier)
  | watermark (w : Nat)
  | stop
  | endOfData
deriving DecidableEq, Repr

/-- Modelled from the spec: `CheckpointCounter` from the worker engine (not
among the excerpted sources). Sized to the total number of physical inputs;
`mark idx` records that partition `idx` delivered its barrier for the
in-flight epoch and returns whether every partition has now marked, upon
which the counter resets; `is_blocked idx` reports whether `idx` already
delivered its barrier for the in-flight epoch; `all_clear` holds when no
epoch is in flight. -/
structure CheckpointCounter where
  size : Nat
  marked : List Nat
deriving DecidableEq, Repr

def CheckpointCounter.is_blocked (c : CheckpointCounter) (idx : Nat) : Bool :=
  decide (idx ∈ c.marked)

def CheckpointCounter.all_clear (c : CheckpointCounter) : Bool :=
  c.marked.isEmpty

def CheckpointCounter.mark (c : CheckpointCounter) (idx : Nat) :
    CheckpointCounter × Bool :=
  let m := if idx ∈ c.marked then c.marked else idx :: c.marked
  if m.length = c.size then ({ size := c.size, marked := [] }, true)
  else ({ size := c.size, marked := m }, false)

/-- The parts of the generated task `Context` the control handlers read:
per-physical-input watermarks (`ctx.watermarks`) and pending timers
(key, trigger time). Timers are modelled from the spec. -/
structure RtCtx where
  watermarks : List (Option Nat)
  timers : List (Nat × Nat)
deriving DecidableEq, Repr

def minOfList : List Nat → Option Nat
  | [] => none
  | x :: rest =>
    match minOfList rest with
    | none => some x
    | some m => some (min x m)

/-- Modelled from the spec: `Context::watermark` (worker engine, not among
the excerpted sources): "the task's emitted watermark is the minimum of all
input watermarks", defined only once every input has reported one. -/
def RtCtx.watermark (ctx : RtCtx) : Option Nat :=
  if ctx.watermarks.all (fun w => w.isSome) then
    minOfList (ctx.watermarks.filterMap id)
  else none

/-- Observable actions of the runtime: controller-facing checkpoint events
(`ControlResp::CheckpointEvent`), calls into the user operator, calls into
the state backend, and downstream broadcasts on every output channel. -/
inductive RtEvent where
  | checkpointEvent (epoch : Nat) (t : TaskCheckpointEventType)
  | userHandleCheckpoint (epoch : Nat)
  | stateCheckpoint (epoch : Nat) (watermark : Option Nat)
  | stateHandleWatermark (w : Nat)
  | userHandleTimer (key time : Nat)
  | broadcast (m : WMessage)
deriving DecidableEq, Repr

/-- The generated `checkpoint` method (lib.rs lines 652-682): emit
`StartedCheckpointing`, invoke the user's `handle_checkpoint`, emit
`FinishedOperatorSetup`, snapshot the state backend carrying the current
watermark, emit `FinishedSync`, broadcast the barrier downstream; returns
`then_stop`. -/
def checkpointFn (b : CheckpointBarrier) (ctx : RtCtx) : List RtEvent × Bool :=
  ([ .checkpointEvent b.epoch .startedCheckpointing,
     .userHandleCheckpoint b.epoch,
     .checkpointEvent b.epoch .finishedOperatorSetup,
     .stateCheckpoint b.epoch ctx.watermark,
     .checkpointEvent b.epoch .finishedSync,
     .broadcast (.barrier b) ], b.then_stop)

/-- Modelled from the spec: `ProcessFnUtils::finished_timers` (worker crate,
not among the excerpted sources): timers whose trigger time is at or below
the watermark fire and are removed. -/
def finished_timers (w : Nat) (timers : List (Nat × Nat)) :
    List (Nat × Nat) × List (Nat × Nat) :=
  (timers.filter (fun t => t.2 ≤ w), timers.filter (fun t => ¬ t.2 ≤ w))

/-- The generated `handle_watermark_int` (lib.rs lines 684-698): fire every
finished timer through the user's `handle_timer`, then call
`handle_watermark`, whose default implementation (lines 737-745) broadcasts
the watermark downstream. -/
def handle_watermark_int (w : Nat) (ctx : RtCtx) : RtCtx × List RtEvent :=
  let ft := finished_timers w ctx.timers
  ({ ctx with timers := ft.2 },
   ft.1.map (fun t => RtEvent.userHandleTimer t.1 t.2) ++
     [RtEvent.broadcast (.watermark w)])

inductive ControlOutcome where
  | Continue | Stop | Finish
deriving DecidableEq, Repr

/-- The `Message::Watermark` arm of `handle_control_message`
(lib.rs lines 621-632): panic when the index exceeds the watermark vector,
store the watermark, and when `ctx.watermark()` is defined notify the state
backend and run `handle_watermark_int`. Returns the new context, the
emitted events, and the value of the emitted task watermark when one is
emitted. -/
def watermarkArm (idx w : Nat) (ctx : RtCtx) :
    Option (RtCtx × List RtEvent × Option Nat) :=
  if ctx.watermarks.length ≤ idx then none
  else
    let ctx1 : RtCtx := { ctx with watermarks := ctx.watermarks.set idx (some w) }
    match ctx1.watermark with
    | some wm =>
      let hw := handle_watermark_int wm ctx1
      some (hw.1, RtEvent.stateHandleWatermark wm :: hw.2, some wm)
    | none => some (ctx1, [], none)

structure HcmResult where
  counter : CheckpointCounter
  closed : List Nat
  ctx : RtCtx
  events : List RtEvent
  outcome : ControlOutcome
deriving DecidableEq, Repr

/-- `HashSet::insert`. -/
def setInsert (l : List Nat) (x : Nat) : List Nat :=
  if l.contains x then l else x :: l

/-- The generated `handle_control_message` (lib.rs lines 575-649). `none`
models the panics (a `Record` reaching it is `unreachable!()`; an
out-of-range watermark index panics). -/
def handle_control_message (idx : Nat) (m : WMessage)
    (counter : CheckpointCounter) (closed : List Nat) (in_partitions : Nat)
    (ctx : RtCtx) : Option HcmResult :=
  match m with
  | .record _ => none
  | .barrier b =>
    let preEvents := if counter.all_clear
      then [RtEvent.checkpointEvent b.epoch .startedAlignment] else []
    let mk := counter.mark idx
    if mk.2 then
      let ck := checkpointFn b ctx
      some { counter := mk.1, closed := closed, ctx := ctx,
             events := preEvents ++ ck.1,
             outcome := if ck.2 then .Stop else .Continue }
    else
      some { counter := mk.1, closed := closed, ctx := ctx,
             events := preEvents, outcome := .Continue }
  | .watermark w =>
    match watermarkArm idx w ctx with
    | none => none
    | some r =>
      some { counter := counter, closed := closed, ctx := r.1,
             events := r.2.1, outcome := .Continue }
  | .stop =>
    let closed1 := setInsert closed idx
    if closed1.length = in_partitions then
      some { counter := counter, closed := closed1, ctx := ctx,
             events := [RtEvent.broadcast .stop], outcome := .Stop }
    else
      some { counter := counter, closed := closed1, ctx := ctx,
             events := [], outcome := .Continue }
  | .endOfData =>
    let closed1 := setInsert closed idx
    if closed1.length = in_partitions then
      some { counter := counter, closed := closed1, ctx := ctx,
             events := [RtEvent.broadcast .endOfData], outcome := .Finish }
    else
      some { counter := counter, closed := closed1, ctx := ctx,
             events := [], outcome := .Continue }

/-- How the event loop reacts to the control outcome (lib.rs lines 428-440):
`Stop` broadcasts `Message::Stop` and breaks, `Finish` broadcasts
`Message::EndOfData` and breaks, `Continue` does nothing. The boolean is
"the operator stops". -/
def loopDispatchOutcome : ControlOutcome → List RtEvent × Bool
  | .Continue => ([], false)
  | .Stop => ([RtEvent.broadcast .stop], true)
  | .Finish => ([RtEvent.broadcast .endOfData], true)

/-- C5: when the barrier of epoch `E` arrives on the last unmarked partition
(`counter.mark` returns true), the operator performs, in this order:
emit `StartedCheckpointing`, invoke the user's `handle_checkpoint`, emit
`FinishedOperatorSetup`, invoke the state backend's checkpoint carrying the
current watermark, emit `FinishedSync`, broadcast `Barrier(E)` on every
output channel; and the operator stops after that emission iff
`barrier.then_stop` (a `StartedAlignment` event precedes the sequence
exactly when this barrier is also the first of its epoch). -/
theorem c5_checkpoint_sequence (idx : Nat) (b : CheckpointBarrier)
    (counter : CheckpointCounter) (closed : List Nat) (in_partitions : Nat)
    (ctx : RtCtx) (hmark : (counter.mark idx).2 = true) :
    ∃ res, handle_control_message idx (.barrier b) counter closed in_partitions ctx =
        some res ∧
      res.events =
        (if counter.all_clear
          then [RtEvent.checkpointEvent b.epoch .startedAlignment] else []) ++
        [ RtEvent.checkpointEvent b.epoch .startedCheckpointing,
          RtEvent.userHandleCheckpoint b.epoch,
          RtEvent.checkpointEvent b.epoch .finishedOperatorSetup,
          RtEvent.stateCheckpoint b.epoch ctx.watermark,
          RtEvent.checkpointEvent b.epoch .finishedSync,
          RtEvent.broadcast (.barrier b) ] ∧
      (res.outcome = .Stop ↔ b.then_stop = true) ∧
      (loopDispatchOutcome res.outcome).2 = b.then_stop := by
  have hres : handle_control_message idx (.barrier b) counter closed in_partitions ctx =
      some { counter := (counter.mark idx).1, closed := closed, ctx := ctx,
             events :=
               (if counter.all_clear
                 then [RtEvent.checkpointEvent b.epoch .startedAlignment] else []) ++
               (checkpointFn b ctx).1,
             outcome := if b.then_stop then .Stop else .Continue } := by
    simp only [handle_control_message, hmark, if_true, checkpointFn]
  refine ⟨_, hres, rfl, ?_, ?_⟩
  · cases hb : b.then_stop <;> simp [hb]
  · cases hb : b.then_stop <;> simp [hb, loopDispatchOutcome]

def c5Ctx : RtCtx := { watermarks := [some 3, some 7], timers := [] }

theorem c5_witness :
    ((CheckpointCounter.mark { size := 2, marked := [0] } 1).2 = true) ∧
    ∃ res, handle_control_message 1 (.barrier { epoch := 5, then_stop := true })
        { size := 2, marked := [0] } [] 2 c5Ctx = some res ∧
      res.events =
        (if CheckpointCounter.all_clear { size := 2, marked := [0] }
          then [RtEvent.checkpointEvent 5 .startedAlignment] else []) ++
        [ RtEvent.checkpointEvent 5 .startedCheckpointing,
          RtEvent.userHandleCheckpoint 5,
          RtEvent.checkpointEvent 5 .finishedOperatorSetup,
          RtEvent.stateCheckpoint 5 c5Ctx.watermark,
          RtEvent.checkpointEvent 5 .finishedSync,
          RtEvent.broadcast (.barrier { epoch := 5, then_stop := true }) ] ∧
      (res.outcome = .Stop ↔ ({ epoch := 5, then_stop := true } : CheckpointBarrier).then_stop = true) ∧
      (loopDispatchOutcome res.outcome).2 =
        ({ epoch := 5, then_stop := true } : CheckpointBarrier).then_stop :=
  ⟨by decide,
   c5_checkpoint_sequence 1 { epoch := 5, then_stop := true }
     { size := 2, marked := [0] } [] 2 c5Ctx (by decide)⟩

/-! ## C7: emitted watermarks -/

theorem minOfList_eq_none (l : List Nat) : minOfList l = none ↔ l = [] := by
  cases l with
  | nil => simp [minOfList]
  | cons x rest =>
    simp only [minOfList]
    cases minOfList rest <;> simp

theorem minOfList_le (l : List Nat) :
    ∀ (m : Nat), minOfList l = some m → ∀ x ∈ l, m ≤ x := by
  induction l with
  | nil => intro m h; simp [minOfList] at h
  | cons x rest ih =>
    intro m h y hy
    rw [minOfList] at h
    cases hr : minOfList rest with
    | none =>
      rw [hr] at h
      injection h with h
      rw [(minOfList_eq_none rest).1 hr] at hy
      simp at hy
      omega
    | some mr =>
      rw [hr] at h
      injection h with h
      rcases List.mem_cons.1 hy with hxy | hyr
      · rw [hxy]
        omega
      · have := ih mr hr y hyr
        omega

theorem minOfList_mem (l : List Nat) :
    ∀ (m : Nat), minOfList l = some m → m ∈ l := by
  induction l with
  | nil => intro m h; simp [minOfList] at h
  | cons x rest ih =>
    intro m h
    rw [minOfList] at h
    cases hr : minOfList rest with
    | none =>
      rw [hr] at h
      injection h with h
      simp [h]
    | some mr =>
      rw [hr] at h
      injection h with h
      rcases Nat.le_total x mr with hle | hle
      · rw [← h, min_eq_left hle]
        simp
      · rw [← h, min_eq_right hle]
        simp [ih mr hr]

theorem minOfList_isSome (l : List Nat) (hne : l ≠ []) :
    ∃ m, minOfList l = some m := by
  cases hl : minOfList l with
  | none => exact absurd ((minOfList_eq_none l).1 hl) hne
  | some m => exact ⟨m, rfl⟩

theorem get?_of_mem {α : Type} (l : List α) (a : α) (h : a ∈ l) :
    ∃ i, l.get? i = some a := by
  induction l with
  | nil => simp at h
  | cons x rest ih =>
    rcases List.mem_cons.1 h with hx | hr
    · refine ⟨0, ?_⟩
      rw [hx]
      rfl
    · obtain ⟨i, hi⟩ := ih hr
      exact ⟨i + 1, hi⟩

theorem mem_of_get? {α : Type} (l : List α) (i : Nat) (a : α)
    (h : l.get? i = some a) : a ∈ l := by
  induction l generalizing i with
  | nil => simp at h
  | cons x rest ih =>
    cases i with
    | zero =>
      have h0 : some x = some a := h
      injection h0 with h0
      simp [h0]
    | succ i =>
      have h2 : rest.get? i = some a := h
      simp [ih i h2]

theorem watermark_some_elim (ctx : RtCtx) (m : Nat) (h : ctx.watermark = some m) :
    ctx.watermarks.all (fun w => w.isSome) = true ∧
    minOfList (ctx.watermarks.filterMap id) = some m := by
  rw [RtCtx.watermark] at h
  by_cases hall : ctx.watermarks.all (fun w => w.isSome) = true
  · rw [if_pos hall] at h
    exact ⟨hall, h⟩
  · rw [if_neg hall] at h
    exact Option.noConfusion h

theorem watermark_le_mem (ctx : RtCtx) (m v : Nat) (h : ctx.watermark = some m)
    (hv : (some v) ∈ ctx.watermarks) : m ≤ v := by
  obtain ⟨_, hmin⟩ := watermark_some_elim ctx m h
  apply minOfList_le _ m hmin
  rw [List.mem_filterMap]
  exact ⟨some v, hv, rfl⟩

theorem watermark_mem (ctx : RtCtx) (m : Nat) (h : ctx.watermark = some m) :
    (some m) ∈ ctx.watermarks := by
  obtain ⟨_, hmin⟩ := watermark_some_elim ctx m h
  have hm := minOfList_mem _ m hmin
  rw [List.mem_filterMap] at hm
  obtain ⟨a, ha, hid⟩ := hm
  simp only [id] at hid
  rw [← hid]
  exact ha

theorem watermark_isSome_intro (ctx : RtCtx)
    (hall : ctx.watermarks.all (fun w => w.isSome) = true)
    (hne : ctx.watermarks ≠ []) : ∃ m, ctx.watermark = some m := by
  rw [RtCtx.watermark, if_pos hall]
  apply minOfList_isSome
  intro hnil
  cases hw : ctx.watermarks with
  | nil => exact hne hw
  | cons x rest =>
    have hx : x.isSome = true := by
      apply List.all_eq_true.1 hall
      rw [hw]
      exact List.mem_cons_self x rest
    cases x with
    | none => simp at hx
    | some v =>
      rw [hw] at hnil
      simp [List.filterMap] at hnil

theorem watermark_grow (ctx1 ctx2 : RtCtx)
    (hlen : ctx2.watermarks.length = ctx1.watermarks.length)
    (hgrow : ∀ i v, ctx1.watermarks.get? i = some (some v) →
      ∃ v2, ctx2.watermarks.get? i = some (some v2) ∧ v ≤ v2)
    (m : Nat) (h : ctx1.watermark = some m) :
    ∃ m2, ctx2.watermark = some m2 ∧ m ≤ m2 := by
  obtain ⟨hall1, _⟩ := watermark_some_elim ctx1 m h
  have hsome1 : ∀ i, i < ctx1.watermarks.length →
      ∃ v, ctx1.watermarks.get? i = some (some v) := by
    intro i hi
    cases hq : ctx1.watermarks.get? i with
    | none =>
      rw [List.get?_eq_none] at hq
      omega
    | some x =>
      have hxs : x.isSome = true :=
        List.all_eq_true.1 hall1 x (mem_of_get? _ _ _ hq)
      cases x with
      | none => simp at hxs
      | some v => exact ⟨v, rfl⟩
  have hall2 : ctx2.watermarks.all (fun w => w.isSome) = true := by
    rw [List.all_eq_true]
    intro w hw
    obtain ⟨i, hi⟩ := get?_of_mem _ w hw
    have hilt : i < ctx2.watermarks.length := by
      by_contra hge
      rw [List.get?_eq_none.2 (by omega)] at hi
      exact Option.noConfusion hi
    obtain ⟨v, hv⟩ := hsome1 i (by omega)
    obtain ⟨v2, hv2, _⟩ := hgrow i v hv
    rw [hi] at hv2
    injection hv2 with hv2
    rw [hv2]
    rfl
  have hne2 : ctx2.watermarks ≠ [] := by
    intro hnil
    have hm1 := watermark_mem ctx1 m h
    have : ctx1.watermarks ≠ [] := by
      intro hnil1
      rw [hnil1] at hm1
      simp at hm1
    have hpos : 0 < ctx1.watermarks.length := List.length_pos.2 this
    rw [hnil] at hlen
    simp at hlen
    omega
  obtain ⟨m2, hm2⟩ := watermark_isSome_intro ctx2 hall2 hne2
  refine ⟨m2, hm2, ?_⟩
  obtain ⟨i, hi⟩ := get?_of_mem _ _ (watermark_mem ctx2 m2 hm2)
  have hilt : i < ctx2.watermarks.length := by
    by_contra hge
    rw [List.get?_eq_none.2 (by omega)] at hi
    exact Option.noConfusion hi
  obtain ⟨v, hv⟩ := hsome1 i (by omega)
  obtain ⟨v2, hv2, hle⟩ := hgrow i v hv
  rw [hi] at hv2
  injection hv2 with hv2
  injection hv2 with hv2
  have hmv := watermark_le_mem ctx1 m v h (mem_of_get? _ _ _ hv)
  omega

/-- Process a sequence of `Message::Watermark(idx, w)` arrivals, collecting
the task watermarks emitted along the way. -/
def runWatermarks : List (Nat × Nat) → RtCtx → Option (RtCtx × List Nat)
  | [], ctx => some (ctx, [])
  | (idx, w) :: rest, ctx =>
    match watermarkArm idx w ctx with
    | none => none
    | some r =>
      match runWatermarks rest r.1 with
      | none => none
      | some pr =>
        some (pr.1, (match r.2.2 with | some wm => [wm] | none => []) ++ pr.2)

theorem watermarkArm_elim (idx w : Nat) (ctx : RtCtx)
    (r : RtCtx × List RtEvent × Option Nat) (h : watermarkArm idx w ctx = some r) :
    idx < ctx.watermarks.length ∧
    r.1.watermarks = ctx.watermarks.set idx (some w) ∧
    ((∃ wm, ({ ctx with watermarks := ctx.watermarks.set idx (some w) } : RtCtx).watermark
          = some wm ∧ r.2.2 = some wm ∧
        r.2.1 = RtEvent.stateHandleWatermark wm ::
          ((finished_timers wm ctx.timers).1.map
            (fun t => RtEvent.userHandleTimer t.1 t.2) ++
           [RtEvent.broadcast (.watermark wm)])) ∨
     (({ ctx with watermarks := ctx.watermarks.set idx (some w) } : RtCtx).watermark
          = none ∧ r.2.2 = none ∧ r.2.1 = [])) := by
  rw [watermarkArm] at h
  by_cases hlt : ctx.watermarks.length ≤ idx
  · rw [if_pos hlt] at h
    exact Option.noConfusion h
  · rw [if_neg hlt] at h
    simp only [] at h
    cases hwm : ({ ctx with watermarks := ctx.watermarks.set idx (some w) } : RtCtx).watermark with
    | some wm =>
      rw [hwm] at h
      injection h with h
      refine ⟨by omega, ?_, Or.inl ⟨wm, rfl, ?_, ?_⟩⟩
      · rw [← h]
        rfl
      · rw [← h]
      · rw [← h]
        rfl
    | none =>
      rw [hwm] at h
      injection h with h
      refine ⟨by omega, ?_, Or.inr ⟨rfl, ?_, ?_⟩⟩
      · rw [← h]
      · rw [← h]
      · rw [← h]

/-- Future watermark messages never fall below what their input already
reported (per-partition monotone arrival). -/
def FutureBound (ctx : RtCtx) (msgs : List (Nat × Nat)) : Prop :=
  ∀ p ∈ msgs, ∀ v, ctx.watermarks.get? p.1 = some (some v) → v ≤ p.2

theorem runWatermarks_mono :
    ∀ (msgs : List (Nat × Nat)) (ctx : RtCtx) (prev : Option Nat),
      List.Pairwise (fun a b : Nat × Nat => a.1 = b.1 → a.2 ≤ b.2) msgs →
      FutureBound ctx msgs →
      (∀ v, prev = some v → ∃ m, ctx.watermark = some m ∧ v ≤ m) →
      ∀ ctx2 ems, runWatermarks msgs ctx = some (ctx2, ems) →
        List.Chain' (fun a b => a ≤ b) ems ∧
        (∀ x ∈ ems.head?, ∀ v, prev = some v → v ≤ x) := by
  intro msgs
  induction msgs with
  | nil =>
    intro ctx prev _ _ _ ctx2 ems hrun
    simp [runWatermarks] at hrun
    rw [hrun.2]
    exact ⟨List.chain'_nil, by simp⟩
  | cons p rest ih =>
    obtain ⟨idx, w⟩ := p
    intro ctx prev hpw hfb hprev ctx2 ems hrun
    rw [runWatermarks] at hrun
    cases harm : watermarkArm idx w ctx with
    | none => rw [harm] at hrun; exact Option.noConfusion hrun
    | some r =>
      rw [harm] at hrun
      simp only [] at hrun
      cases hrec : runWatermarks rest r.1 with
      | none => rw [hrec] at hrun; exact Option.noConfusion hrun
      | some pr =>
        obtain ⟨ctxR, emsR⟩ := pr
        rw [hrec] at hrun
        simp only [Option.some.injEq, Prod.mk.injEq] at hrun
        obtain ⟨hctx2, hems⟩ := hrun
        obtain ⟨hlt, hwats, hcase⟩ := watermarkArm_elim idx w ctx r harm
        rw [List.pairwise_cons] at hpw
        -- the context after this message, seen through its watermark vector
        have hlen1 : r.1.watermarks.length = ctx.watermarks.length := by
          rw [hwats]
          simp
        have hgrow : ∀ i v, ctx.watermarks.get? i = some (some v) →
            ∃ v2, r.1.watermarks.get? i = some (some v2) ∧ v ≤ v2 := by
          intro i v hv
          rw [hwats]
          by_cases hii : i = idx
          · subst hii
            refine ⟨w, ?_, ?_⟩
            · exact List.get?_set_eq_of_lt (some w) hlt
            · exact hfb (i, w) (List.mem_cons_self _ _) v hv
          · refine ⟨v, ?_, le_refl v⟩
            rw [List.get?_set_ne (some w) _ (fun hcc => hii hcc.symm)]
            exact hv
        have hfbR : FutureBound r.1 rest := by
          intro q hq v hv
          rw [hwats] at hv
          by_cases hqi : q.1 = idx
          · rw [hqi] at hv
            rw [List.get?_set_eq_of_lt (some w) hlt] at hv
            injection hv with hv
            injection hv with hv
            rw [← hv]
            exact hpw.1 q hq hqi.symm
          · rw [List.get?_set_ne (some w) _ (fun hcc => hqi hcc.symm)] at hv
            exact hfb q (List.mem_cons_of_mem _ hq) v hv
        -- the watermark of the post-message context equals that of ctx1
        have hwmR : r.1.watermark =
            ({ ctx with watermarks := ctx.watermarks.set idx (some w) } : RtCtx).watermark := by
          rw [RtCtx.watermark, RtCtx.watermark, hwats]
        rcases hcase with ⟨wm, hwm, hemit, _⟩ | ⟨hwm, hemit, _⟩
        · -- emission: ems = wm :: emsR
          have hprevR : ∀ v, some wm = some v → ∃ m, r.1.watermark = some m ∧ v ≤ m := by
            intro v hv
            injection hv with hv
            exact ⟨wm, by rw [hwmR]; exact hwm, by omega⟩
          obtain ⟨hchainR, hheadR⟩ := ih r.1 (some wm) hpw.2 hfbR hprevR ctxR emsR hrec
          rw [hemit] at hems
          simp only [] at hems
          rw [← hems, List.singleton_append]
          constructor
          · rw [List.chain'_cons']
            refine ⟨?_, hchainR⟩
            intro y hy
            exact hheadR y hy wm rfl
          · intro x hx v hv
            simp at hx
            rw [← hx]
            obtain ⟨m, hm, hvm⟩ := hprev v hv
            obtain ⟨m2, hm2, hmm2⟩ := watermark_grow ctx
              { ctx with watermarks := ctx.watermarks.set idx (some w) }
              (by simp) (by simpa [hwats] using hgrow) m hm
            rw [hwm] at hm2
            injection hm2 with hm2
            omega
        · -- no emission; a previous emission would force one, so prev is none
          have hprevR : ∀ v, prev = some v → ∃ m, r.1.watermark = some m ∧ v ≤ m := by
            intro v hv
            exfalso
            obtain ⟨m, hm, _⟩ := hprev v hv
            obtain ⟨m2, hm2, _⟩ := watermark_grow ctx
              { ctx with watermarks := ctx.watermarks.set idx (some w) }
              (by simp) (by simpa [hwats] using hgrow) m hm
            rw [hwm] at hm2
            exact Option.noConfusion hm2
          obtain ⟨hchainR, hheadR⟩ := ih r.1 prev hpw.2 hfbR hprevR ctxR emsR hrec
          rw [hemit] at hems
          simp only [List.nil_append] at hems
          rw [← hems]
          exact ⟨hchainR, hheadR⟩

/-- C7: (1) whenever a watermark message makes the subtask emit, the emitted
value is `ctx.watermark()` of the updated watermark vector — defined only
once every input has reported, as the minimum over the inputs — and the
events are, in order: the state backend notification, `handle_timer` for
exactly the timers with trigger time at or below the watermark, then
`handle_watermark` (whose default broadcasts the watermark downstream);
(2) under per-partition monotone watermark arrivals from the initial
all-unreported vector, the sequence of emitted watermarks is non-decreasing. -/
theorem c7_watermark_min_monotone :
    (∀ (idx w : Nat) (ctx : RtCtx) (r : RtCtx × List RtEvent × Option Nat) (wm : Nat),
      watermarkArm idx w ctx = some r → r.2.2 = some wm →
      ({ ctx with watermarks := ctx.watermarks.set idx (some w) } : RtCtx).watermark
          = some wm ∧
      ((ctx.watermarks.set idx (some w)).all (fun x => x.isSome)) = true ∧
      r.2.1 = RtEvent.stateHandleWatermark wm ::
        ((finished_timers wm ctx.timers).1.map
          (fun t => RtEvent.userHandleTimer t.1 t.2) ++
         [RtEvent.broadcast (.watermark wm)]) ∧
      (∀ t ∈ (finished_timers wm ctx.timers).1, t.2 ≤ wm)) ∧
    (∀ (msgs : List (Nat × Nat)) (n : Nat) (ctx0 : RtCtx),
      ctx0.watermarks = List.replicate n none →
      List.Pairwise (fun a b : Nat × Nat => a.1 = b.1 → a.2 ≤ b.2) msgs →
      ∀ ctx2 ems, runWatermarks msgs ctx0 = some (ctx2, ems) →
        List.Chain' (fun a b => a ≤ b) ems) := by
  constructor
  · intro idx w ctx r wm harm hemit
    obtain ⟨hlt, _, hcase⟩ := watermarkArm_elim idx w ctx r harm
    rcases hcase with ⟨wm2, hwm2, hemit2, hevs⟩ | ⟨_, hemit2, _⟩
    · rw [hemit] at hemit2
      injection hemit2 with hemit2
      rw [← hemit2] at hwm2 hevs
      refine ⟨hwm2, (watermark_some_elim _ wm hwm2).1, hevs, ?_⟩
      intro t ht
      rw [finished_timers] at ht
      simp only [List.mem_filter] at ht
      exact of_decide_eq_true ht.2
    · rw [hemit] at hemit2
      exact Option.noConfusion hemit2
  · intro msgs n ctx0 hrep hpw ctx2 ems hrun
    have hfb : FutureBound ctx0 msgs := by
      intro p hp v hv
      rw [hrep] at hv
      exfalso
      have := mem_of_get? _ _ _ hv
      rw [List.mem_replicate] at this
      exact Option.noConfusion this.2
    exact (runWatermarks_mono msgs ctx0 none hpw hfb (by simp) ctx2 ems hrun).1

def c7Ctx : RtCtx := { watermarks := [some 5, none], timers := [(1, 4), (2, 9)] }

theorem c7_witness :
    (∃ r, watermarkArm 1 7 c7Ctx = some r ∧ r.2.2 = some 5 ∧
      r.2.1 = RtEvent.stateHandleWatermark 5 ::
        ((finished_timers 5 c7Ctx.timers).1.map
          (fun t => RtEvent.userHandleTimer t.1 t.2) ++
         [RtEvent.broadcast (.watermark 5)]) ∧
      (∀ t ∈ (finished_timers 5 c7Ctx.timers).1, t.2 ≤ 5)) ∧
    (∃ ctx2, runWatermarks [(0, 5), (1, 7), (0, 9)]
        { watermarks := List.replicate 2 none, timers := [] } = some (ctx2, [5, 7]) ∧
      List.Chain' (fun a b => a ≤ b) [5, 7]) := by
  constructor
  · have harm : watermarkArm 1 7 c7Ctx =
        some ({ watermarks := [some 5, some 7], timers := [(2, 9)] },
              [RtEvent.stateHandleWatermark 5, RtEvent.userHandleTimer 1 4,
               RtEvent.broadcast (.watermark 5)], some 5) := by rfl
    have h := c7_watermark_min_monotone.1 1 7 c7Ctx _ 5 harm rfl
    exact ⟨_, harm, rfl, h.2.2.1, h.2.2.2⟩
  · refine ⟨{ watermarks := [some 9, some 7], timers := [] }, by rfl, ?_⟩
    exact c7_watermark_min_monotone.2 [(0, 5), (1, 7), (0, 9)] 2
      { watermarks := List.replicate 2 none, timers := [] } rfl
      (by decide) _ [5, 7] (by rfl)

/-! ## C6: aligned barriers — blocked partitions and epoch ordering -/

/-- Messages on one input partition, for the alignment model: data records
(ghost-tagged with the checkpoint epoch they belong to) and barriers. -/
inductive Msg6 where
  | record (epoch : Nat)
  | barrier (epoch : Nat)
deriving DecidableEq, Repr

/-- Dispatch trace: records handed to the user handler, barriers handed to
the alignment counter, each with its source partition. -/
inductive TraceEv where
  | record (part epoch : Nat)
  | barrier (part epoch : Nat)
deriving DecidableEq, Repr

structure LoopState where
  queues : List (List Msg6)
  sel : List Nat
  blocked : List Nat
  counter : CheckpointCounter
  trace : List TraceEv
deriving DecidableEq, Repr

/-- The post-dispatch bookkeeping of the generated event loop
(lib.rs lines 445-454): a partition the counter reports blocked is parked in
the blocked set; otherwise, when `all_clear` holds and the blocked set is
nonempty, the blocked partitions are re-admitted before the current stream
is re-enqueued. -/
def afterDispatch (st : LoopState) (i : Nat) : LoopState :=
  if st.counter.is_blocked i then { st with blocked := st.blocked ++ [i] }
  else if st.counter.all_clear && !st.blocked.isEmpty then
    { st with sel := st.sel ++ st.blocked ++ [i], blocked := [] }
  else { st with sel := st.sel ++ [i] }

/-- One iteration of the generated event loop (lib.rs lines 495-512 with the
handle matcher), restricted to records and barriers: the multiplexed reader
yields ready partition `i`; its head message is dispatched (a record to the
user handler, a barrier to `counter.mark`) and the blocking logic runs.
`none` when `i` is not ready or has no pending message. -/
def step6 (st : LoopState) (i : Nat) : Option LoopState :=
  if i ∈ st.sel then
    match st.queues.get? i with
    | some (m :: rest) =>
      let st1 : LoopState := { st with queues := st.queues.set i rest,
                                       sel := st.sel.erase i }
      match m with
      | .record e =>
        some (afterDispatch { st1 with trace := st1.trace ++ [.record i e] } i)
      | .barrier e =>
        some (afterDispatch
          { st1 with counter := (st1.counter.mark i).1,
                     trace := st1.trace ++ [.barrier i e] } i)
    | _ => none
  else none

def run6 : List Nat → LoopState → Option LoopState
  | [], st => some st
  | i :: rest, st =>
    match step6 st i with
    | none => none
    | some st2 => run6 rest st2

def init6 (qs : List (List Msg6)) : LoopState :=
  { queues := qs, sel := List.range qs.length, blocked := [],
    counter := { size := qs.length, marked := [] }, trace := [] }

/-- Input wellformedness from epoch `e` on: records carry the in-flight
epoch, and the barrier for epoch `e` closes it (per-partition FIFO order,
one barrier per epoch). -/
def wfQueue : Nat → List Msg6 → Bool
  | _, [] => true
  | e, .record e2 :: rest => e2 == e && wfQueue e rest
  | e, .barrier e2 :: rest => e2 == e && wfQueue (e + 1) rest

/-- Number of barriers partition `i` has delivered in the trace. -/
def barrierCount (trace : List TraceEv) (i : Nat) : Nat :=
  trace.countP (fun ev => match ev with | .barrier p _ => p == i | _ => false)

/-- Number of barrier-`E` deliveries from partition `j` in the trace. -/
def countBar (trace : List TraceEv) (j E : Nat) : Nat :=
  trace.countP (fun ev => ev == TraceEv.barrier j E)

theorem barrierCount_append_rec (t : List TraceEv) (i p e : Nat) :
    barrierCount (t ++ [.record p e]) i = barrierCount t i := by
  rw [barrierCount, barrierCount, List.countP_append]
  simp [List.countP_cons]

theorem barrierCount_append_barrier (t : List TraceEv) (i p e : Nat) :
    barrierCount (t ++ [.barrier p e]) i =
      barrierCount t i + (if p = i then 1 else 0) := by
  rw [barrierCount, barrierCount, List.countP_append]
  by_cases hp : p = i <;> simp [List.countP_cons, hp]

theorem countBar_append_rec (t : List TraceEv) (j E p e : Nat) :
    countBar (t ++ [.record p e]) j E = countBar t j E := by
  rw [countBar, countBar, List.countP_append]
  simp [List.countP_cons]

theorem countBar_append_barrier (t : List TraceEv) (j E p e : Nat) :
    countBar (t ++ [.barrier p e]) j E =
      countBar t j E + (if p = j ∧ e = E then 1 else 0) := by
  rw [countBar, countBar, List.countP_append]
  by_cases hp : p = j
  · by_cases he : e = E
    · simp [List.countP_cons, hp, he]
    · simp [List.countP_cons, hp, he]
  · simp [List.countP_cons, hp]

theorem wfQueue_rec_elim (e e2 : Nat) (rest : List Msg6)
    (h : wfQueue e (.record e2 :: rest) = true) :
    e2 = e ∧ wfQueue e rest = true := by
  rw [wfQueue, Bool.and_eq_true] at h
  exact ⟨by simpa using h.1, h.2⟩

theorem wfQueue_barrier_elim (e e2 : Nat) (rest : List Msg6)
    (h : wfQueue e (.barrier e2 :: rest) = true) :
    e2 = e ∧ wfQueue (e + 1) rest = true := by
  rw [wfQueue, Bool.and_eq_true] at h
  exact ⟨by simpa using h.1, h.2⟩

theorem append_singleton_decomp {α : Type} (l t1 t2 : List α) (x m : α)
    (h : l ++ [x] = t1 ++ m :: t2) :
    (t1 = l ∧ m = x ∧ t2 = []) ∨
    (∃ t2', t2 = t2' ++ [x] ∧ l = t1 ++ m :: t2') := by
  rcases List.eq_nil_or_concat t2 with h2 | ⟨t2', y, h2⟩
  · subst h2
    have := List.append_inj' h rfl
    exact Or.inl ⟨this.1.symm, (List.cons.inj this.2).1.symm, rfl⟩
  · subst h2
    have hx : l ++ [x] = (t1 ++ m :: t2') ++ [y] := by
      rw [h]
      simp
    have := List.append_inj' hx rfl
    refine Or.inr ⟨t2', ?_, this.1⟩
    rw [(List.cons.inj this.2).1]
    exact List.concat_eq_append t2' y

theorem mem_of_nodup_bound_length (l : List Nat) (n : Nat) (hnd : l.Nodup)
    (hsub : ∀ x ∈ l, x < n) (hlen : l.length = n) : ∀ j, j < n → j ∈ l := by
  intro j hj
  have h1 : l.toFinset ⊆ Finset.range n := by
    intro x hx
    exact Finset.mem_range.2 (hsub x (List.mem_toFinset.1 hx))
  have h2 : l.toFinset.card = n := by
    rw [List.toFinset_card_of_nodup hnd, hlen]
  have h3 : Finset.range n ⊆ l.toFinset := by
    apply Finset.subset_of_eq
    refine (Finset.eq_of_subset_of_card_le h1 ?_).symm
    rw [h2, Finset.card_range]
  exact List.mem_toFinset.1 (h3 (Finset.mem_range.2 hj))

theorem isEmpty_iff_nil {α : Type} (l : List α) : l.isEmpty = true ↔ l = [] := by
  cases l <;> simp

/-- The loop invariant of the alignment protocol after `B` completed epochs:
the blocked set is exactly the set of partitions that delivered their barrier
for the in-flight epoch; marked partitions have delivered `B + 1` barriers
and unmarked ones `B`; ready and blocked sets partition the inputs; each
queue remainder is wellformed for its next epoch; the trace carries exactly
one barrier per delivered epoch per partition, and every dispatched record
of epoch `E + 1` was preceded by barrier `E` from every partition. -/
structure Inv6 (n B : Nat) (st : LoopState) : Prop where
  hqlen : st.queues.length = n
  hcsize : st.counter.size = n
  hmnd : st.counter.marked.Nodup
  hmlt : ∀ i ∈ st.counter.marked, i < n
  hblk : ∀ i, i ∈ st.blocked ↔ i ∈ st.counter.marked
  hselnd : st.sel.Nodup
  hblknd : st.blocked.Nodup
  hsellt : ∀ i ∈ st.sel, i < n
  hdisj : ∀ i ∈ st.sel, i ∉ st.blocked
  hcover : ∀ i, i < n → i ∈ st.sel ∨ i ∈ st.blocked
  hdeliv : ∀ i, i < n →
    barrierCount st.trace i = if i ∈ st.counter.marked then B + 1 else B
  hwf : ∀ i q, st.queues.get? i = some q →
    wfQueue (barrierCount st.trace i + 1) q = true
  hbar : ∀ i E, countBar st.trace i E =
    if 1 ≤ E ∧ E ≤ barrierCount st.trace i then 1 else 0
  hrec : ∀ t1 i E t2, st.trace = t1 ++ .record i (E + 1) :: t2 → 1 ≤ E →
    ∀ j, j < n → countBar t1 j E = 1

theorem inv6_init (qs : List (List Msg6)) (hwfq : ∀ q ∈ qs, wfQueue 1 q = true) :
    Inv6 qs.length 0 (init6 qs) := by
  refine ⟨rfl, rfl, List.nodup_nil, ?_, ?_, List.nodup_range _, List.nodup_nil,
    ?_, ?_, ?_, ?_, ?_, ?_, ?_⟩
  · intro i hi
    simp [init6] at hi
  · intro i
    simp [init6]
  · intro i hi
    simpa [init6] using hi
  · intro i hi
    simp [init6]
  · intro i hi
    simp [init6]
    omega
  · intro i hi
    simp [init6, barrierCount, countBar]
  · intro i q hq
    simp only [init6] at hq
    have hmem := mem_of_get? qs i q hq
    simpa [barrierCount] using hwfq q hmem
  · intro i E
    simp only [init6, countBar, barrierCount, List.countP_nil]
    rw [if_neg (by omega)]
  · intro t1 i E t2 h
    simp only [init6] at h
    exact absurd h.symm (List.append_ne_nil_of_right_ne_nil t1 (by simp))

theorem hbar_barrier_step (trace : List TraceEv) (i e B : Nat)
    (hdelivi : barrierCount trace i = B) (he : e = B + 1)
    (hbar : ∀ j E, countBar trace j E =
      if 1 ≤ E ∧ E ≤ barrierCount trace j then 1 else 0) :
    ∀ j E, countBar (trace ++ [.barrier i e]) j E =
      if 1 ≤ E ∧ E ≤ barrierCount (trace ++ [.barrier i e]) j then 1 else 0 := by
  intro j E
  rw [countBar_append_barrier, barrierCount_append_barrier, hbar j E]
  by_cases hj : i = j
  · subst hj
    rw [hdelivi, he]
    split_ifs <;> omega
  · rw [if_neg (show ¬ (i = j ∧ e = E) from fun hc => hj hc.1), if_neg hj]
    simp

theorem hrec_barrier_step (n : Nat) (trace : List TraceEv) (i e : Nat)
    (hrec : ∀ t1 i0 E t2, trace = t1 ++ .record i0 (E + 1) :: t2 → 1 ≤ E →
      ∀ j, j < n → countBar t1 j E = 1) :
    ∀ t1 i0 E t2, trace ++ [.barrier i e] = t1 ++ .record i0 (E + 1) :: t2 →
      1 ≤ E → ∀ j, j < n → countBar t1 j E = 1 := by
  intro t1 i0 E t2 h hE j hj
  rcases append_singleton_decomp trace t1 t2 (.barrier i e) (.record i0 (E + 1)) h with
    ⟨_, hm, _⟩ | ⟨t2', _, hl⟩
  · exact absurd hm (by simp)
  · exact hrec t1 i0 E t2' hl hE j hj

theorem hrec_rec_step (n : Nat) (trace : List TraceEv) (i e B : Nat)
    (hiltn : i < n) (he : e = B + 1)
    (hdeliv : ∀ j, j < n → barrierCount trace j = B ∨ barrierCount trace j = B + 1)
    (hbar : ∀ j E, countBar trace j E =
      if 1 ≤ E ∧ E ≤ barrierCount trace j then 1 else 0)
    (hrec : ∀ t1 i0 E t2, trace = t1 ++ .record i0 (E + 1) :: t2 → 1 ≤ E →
      ∀ j, j < n → countBar t1 j E = 1) :
    ∀ t1 i0 E t2, trace ++ [.record i e] = t1 ++ .record i0 (E + 1) :: t2 →
      1 ≤ E → ∀ j, j < n → countBar t1 j E = 1 := by
  intro t1 i0 E t2 h hE j hj
  rcases append_singleton_decomp trace t1 t2 (.record i e) (.record i0 (E + 1)) h with
    ⟨ht1, hm, _⟩ | ⟨t2', _, hl⟩
  · have hEe : E + 1 = e := by
      have := TraceEv.record.inj hm
      exact this.2
    rw [ht1, hbar j E]
    rcases hdeliv j hj with hd | hd <;> rw [hd] <;>
      (rw [if_pos ?_]; constructor) <;> omega
  · exact hrec t1 i0 E t2' hl hE j hj

theorem afterDispatch_blocked (st : LoopState) (i : Nat)
    (h : st.counter.is_blocked i = true) :
    afterDispatch st i = { st with blocked := st.blocked ++ [i] } := by
  rw [afterDispatch, if_pos h]

theorem afterDispatch_drain (st : LoopState) (i : Nat)
    (h1 : st.counter.is_blocked i = false)
    (h2 : (st.counter.all_clear && !st.blocked.isEmpty) = true) :
    afterDispatch st i =
      { st with sel := st.sel ++ st.blocked ++ [i], blocked := [] } := by
  rw [afterDispatch, if_neg (by simp [h1]), if_pos h2]

theorem afterDispatch_requeue (st : LoopState) (i : Nat)
    (h1 : st.counter.is_blocked i = false)
    (h2 : (st.counter.all_clear && !st.blocked.isEmpty) = false) :
    afterDispatch st i = { st with sel := st.sel ++ [i] } := by
  rw [afterDispatch, if_neg (by simp [h1]), if_neg (by simp [h2])]

theorem step6_inv (n B : Nat) (st st2 : LoopState) (i : Nat)
    (hstep : step6 st i = some st2) (hinv : Inv6 n B st) :
    Inv6 n B st2 ∨ Inv6 n (B + 1) st2 := by
  rw [step6] at hstep
  by_cases hin : i ∈ st.sel
  case neg =>
    rw [if_neg hin] at hstep
    exact Option.noConfusion hstep
  case pos =>
  rw [if_pos hin] at hstep
  cases hq : st.queues.get? i with
  | none =>
    rw [hq] at hstep
    simp only [] at hstep
    exact Option.noConfusion hstep
  | some q =>
  cases q with
  | nil =>
    rw [hq] at hstep
    simp only [] at hstep
    exact Option.noConfusion hstep
  | cons m rest =>
  rw [hq] at hstep
  simp only [] at hstep
  have hiltn : i < n := hinv.hsellt i hin
  have hnotblk : i ∉ st.blocked := hinv.hdisj i hin
  have hnotmk : i ∉ st.counter.marked := fun hm => hnotblk ((hinv.hblk i).2 hm)
  have hdelivi : barrierCount st.trace i = B := by
    have h := hinv.hdeliv i hiltn
    rwa [if_neg hnotmk] at h
  have hwfi := hinv.hwf i (m :: rest) hq
  rw [hdelivi] at hwfi
  have hiq : i < st.queues.length := by
    by_contra hge
    rw [List.get?_eq_none.2 (by omega)] at hq
    exact Option.noConfusion hq
  have hdichotomy : ∀ j, j < n →
      barrierCount st.trace j = B ∨ barrierCount st.trace j = B + 1 := by
    intro j hj
    have h := hinv.hdeliv j hj
    by_cases hm2 : j ∈ st.counter.marked
    · right; rwa [if_pos hm2] at h
    · left; rwa [if_neg hm2] at h
  have hselerase : ∀ j, j ∈ st.sel.erase i ↔ j ≠ i ∧ j ∈ st.sel := by
    intro j
    exact List.Nodup.mem_erase_iff hinv.hselnd
  cases m with
  | record e =>
    obtain ⟨he, hwfrest⟩ := wfQueue_rec_elim (B + 1) e rest hwfi
    injection hstep with hstep
    have hib : st.counter.is_blocked i = false := by
      rw [CheckpointCounter.is_blocked]
      simp [hnotmk]
    have hcond : (st.counter.all_clear && !st.blocked.isEmpty) = false := by
      cases hbe : st.blocked with
      | nil => simp
      | cons b bs =>
        have hbm : b ∈ st.counter.marked :=
          (hinv.hblk b).1 (by rw [hbe]; exact List.mem_cons_self b bs)
        have hac : st.counter.all_clear = false := by
          rw [CheckpointCounter.all_clear]
          cases hmm : st.counter.marked with
          | nil =>
            rw [hmm] at hbm
            simp at hbm
          | cons c cs => rfl
        rw [hac]
        rfl
    have hst2 : st2 =
        { queues := st.queues.set i rest,
          sel := st.sel.erase i ++ [i],
          blocked := st.blocked,
          counter := st.counter,
          trace := st.trace ++ [.record i e] } := by
      rw [← hstep]
      exact afterDispatch_requeue _ _ hib hcond
    subst hst2
    refine Or.inl ⟨?_, hinv.hcsize, hinv.hmnd, hinv.hmlt, hinv.hblk, ?_,
      hinv.hblknd, ?_, ?_, ?_, ?_, ?_, ?_, ?_⟩
    · simp [hinv.hqlen]
    · rw [List.nodup_append]
      refine ⟨hinv.hselnd.erase i, List.nodup_singleton i, ?_⟩
      intro a ha hai
      rw [List.mem_singleton] at hai
      exact ((hselerase a).1 ha).1 hai
    · intro j hj
      rcases List.mem_append.1 hj with hj | hj
      · exact hinv.hsellt j (List.mem_of_mem_erase hj)
      · rw [List.mem_singleton] at hj
        rw [hj]
        exact hiltn
    · intro j hj
      rcases List.mem_append.1 hj with hj | hj
      · exact hinv.hdisj j (List.mem_of_mem_erase hj)
      · rw [List.mem_singleton] at hj
        rw [hj]
        exact hnotblk
    · intro j hj
      rcases hinv.hcover j hj with hj2 | hj2
      · by_cases hji : j = i
        · left
          rw [List.mem_append, List.mem_singleton]
          exact Or.inr hji
        · left
          rw [List.mem_append]
          exact Or.inl ((hselerase j).2 ⟨hji, hj2⟩)
      · exact Or.inr hj2
    · intro j hj
      rw [barrierCount_append_rec]
      exact hinv.hdeliv j hj
    · intro j q hq2
      by_cases hji : j = i
      · rw [hji] at hq2 ⊢
        rw [List.get?_set_eq_of_lt rest hiq] at hq2
        injection hq2 with hq2
        rw [← hq2, barrierCount_append_rec, hdelivi]
        exact hwfrest
      · rw [List.get?_set_ne rest _ (fun hc => hji hc.symm)] at hq2
        rw [barrierCount_append_rec]
        exact hinv.hwf j q hq2
    · intro j E
      rw [countBar_append_rec, barrierCount_append_rec]
      exact hinv.hbar j E
    · rw [he]
      exact hrec_rec_step n st.trace i (B + 1) B hiltn rfl hdichotomy
        hinv.hbar hinv.hrec
  | barrier e =>
    obtain ⟨he, hwfrest⟩ := wfQueue_barrier_elim (B + 1) e rest hwfi
    injection hstep with hstep
    by_cases hfull : (i :: st.counter.marked).length = st.counter.size
    · -- the barrier completes the epoch: the counter resets
      have hmark1 : (st.counter.mark i).1 =
          { size := st.counter.size, marked := [] } := by
        simp only [CheckpointCounter.mark]
        rw [if_neg hnotmk, if_pos hfull]
      have hR :
          ({ queues := st.queues.set i rest,
             sel := st.sel.erase i,
             blocked := st.blocked,
             counter := (st.counter.mark i).1,
             trace := st.trace ++ [TraceEv.barrier i e] } : LoopState) =
          ({ queues := st.queues.set i rest,
             sel := st.sel.erase i,
             blocked := st.blocked,
             counter := { size := st.counter.size, marked := [] },
             trace := st.trace ++ [TraceEv.barrier i e] } : LoopState) := by
        rw [hmark1]
      rw [hR] at hstep
      have hallmem : ∀ j, j < n → j ∈ i :: st.counter.marked := by
        apply mem_of_nodup_bound_length
        · exact List.nodup_cons.2 ⟨hnotmk, hinv.hmnd⟩
        · intro x hx
          rcases List.mem_cons.1 hx with hx | hx
          · rw [hx]; exact hiltn
          · exact hinv.hmlt x hx
        · rw [hfull, hinv.hcsize]
      have hdeliv2 : ∀ j, j < n →
          barrierCount (st.trace ++ [.barrier i e]) j = B + 1 := by
        intro j hj
        rw [barrierCount_append_barrier]
        by_cases hji : i = j
        · rw [if_pos hji, ← hji, hdelivi]
        · rw [if_neg hji]
          rcases List.mem_cons.1 (hallmem j hj) with hjx | hjx
          · exact absurd hjx.symm hji
          · have h := hinv.hdeliv j hj
            rw [if_pos hjx] at h
            omega
      have hib : CheckpointCounter.is_blocked
          { size := st.counter.size, marked := [] } i = false := by
        rw [CheckpointCounter.is_blocked]
        simp
      have hwfnew : ∀ j q, (st.queues.set i rest).get? j = some q →
          wfQueue (barrierCount (st.trace ++ [.barrier i e]) j + 1) q = true := by
        intro j q hq2
        by_cases hji : j = i
        · rw [hji] at hq2 ⊢
          rw [List.get?_set_eq_of_lt rest hiq] at hq2
          injection hq2 with hq2
          rw [← hq2, barrierCount_append_barrier, if_pos rfl, hdelivi]
          exact hwfrest
        · rw [List.get?_set_ne rest _ (fun hc => hji hc.symm)] at hq2
          rw [barrierCount_append_barrier, if_neg (fun hc => hji hc.symm)]
          exact hinv.hwf j q hq2
      have hbarnew := hbar_barrier_step st.trace i e B hdelivi he hinv.hbar
      have hrecnew := hrec_barrier_step n st.trace i e hinv.hrec
      by_cases hbe : st.blocked = []
      · have hcond2 : (CheckpointCounter.all_clear
            { size := st.counter.size, marked := [] }
            && !st.blocked.isEmpty) = false := by
          rw [hbe]
          rfl
        have hst2 : st2 =
            { queues := st.queues.set i rest,
              sel := st.sel.erase i ++ [i],
              blocked := st.blocked,
              counter := { size := st.counter.size, marked := [] },
              trace := st.trace ++ [.barrier i e] } := by
          rw [← hstep]
          exact afterDispatch_requeue _ _ hib hcond2
        subst hst2
        refine Or.inr ⟨?_, hinv.hcsize, List.nodup_nil, ?_, ?_, ?_, ?_, ?_, ?_,
          ?_, ?_, hwfnew, hbarnew, hrecnew⟩
        · simp [hinv.hqlen]
        · intro j hj
          simp at hj
        · intro j
          rw [hbe]
        · rw [List.nodup_append]
          refine ⟨hinv.hselnd.erase i, List.nodup_singleton i, ?_⟩
          intro a ha hai
          rw [List.mem_singleton] at hai
          exact ((hselerase a).1 ha).1 hai
        · rw [hbe]
          exact List.nodup_nil
        · intro j hj
          rcases List.mem_append.1 hj with hj | hj
          · exact hinv.hsellt j (List.mem_of_mem_erase hj)
          · rw [List.mem_singleton] at hj
            rw [hj]
            exact hiltn
        · intro j hj
          rw [hbe]
          simp
        · intro j hj
          rcases hinv.hcover j hj with hj2 | hj2
          · by_cases hji : j = i
            · left
              rw [List.mem_append, List.mem_singleton]
              exact Or.inr hji
            · left
              rw [List.mem_append]
              exact Or.inl ((hselerase j).2 ⟨hji, hj2⟩)
          · rw [hbe] at hj2
            simp at hj2
        · intro j hj
          rw [hdeliv2 j hj]
          simp
      · have hcond2 : (CheckpointCounter.all_clear
            { size := st.counter.size, marked := [] }
            && !st.blocked.isEmpty) = true := by
          have hne : st.blocked.isEmpty = false := by
            cases hb2 : st.blocked with
            | nil => exact absurd hb2 hbe
            | cons b bs => rfl
          rw [hne]
          rfl
        have hst2 : st2 =
            { queues := st.queues.set i rest,
              sel := st.sel.erase i ++ st.blocked ++ [i],
              blocked := [],
              counter := { size := st.counter.size, marked := [] },
              trace := st.trace ++ [.barrier i e] } := by
          rw [← hstep]
          exact afterDispatch_drain _ _ hib hcond2
        subst hst2
        refine Or.inr ⟨?_, hinv.hcsize, List.nodup_nil, ?_, ?_, ?_, List.nodup_nil,
          ?_, ?_, ?_, ?_, hwfnew, hbarnew, hrecnew⟩
        · simp [hinv.hqlen]
        · intro j hj
          simp at hj
        · intro j
          simp
        · refine List.nodup_append.2 ⟨?_, List.nodup_singleton i, ?_⟩
          · refine List.nodup_append.2 ⟨hinv.hselnd.erase i, hinv.hblknd, ?_⟩
            intro a ha hab
            exact hinv.hdisj a (List.mem_of_mem_erase ha) hab
          · intro a ha hai
            rw [List.mem_singleton] at hai
            rw [hai] at ha
            rcases List.mem_append.1 ha with ha | ha
            · exact ((hselerase i).1 ha).1 rfl
            · exact hnotblk ha
        · intro j hj
          rcases List.mem_append.1 hj with hj | hj
          · rcases List.mem_append.1 hj with hj | hj
            · exact hinv.hsellt j (List.mem_of_mem_erase hj)
            · exact hinv.hmlt j ((hinv.hblk j).1 hj)
          · rw [List.mem_singleton] at hj
            rw [hj]
            exact hiltn
        · intro j hj
          simp
        · intro j hj
          left
          rw [List.mem_append, List.mem_append, List.mem_singleton]
          rcases hinv.hcover j hj with hj2 | hj2
          · by_cases hji : j = i
            · exact Or.inr hji
            · exact Or.inl (Or.inl ((hselerase j).2 ⟨hji, hj2⟩))
          · exact Or.inl (Or.inr hj2)
        · intro j hj
          rw [hdeliv2 j hj]
          simp
    · -- the barrier does not complete the epoch: the partition parks
      have hmark1 : (st.counter.mark i).1 =
          { size := st.counter.size, marked := i :: st.counter.marked } := by
        simp only [CheckpointCounter.mark]
        rw [if_neg hnotmk, if_neg hfull]
      have hR :
          ({ queues := st.queues.set i rest,
             sel := st.sel.erase i,
             blocked := st.blocked,
             counter := (st.counter.mark i).1,
             trace := st.trace ++ [TraceEv.barrier i e] } : LoopState) =
          ({ queues := st.queues.set i rest,
             sel := st.sel.erase i,
             blocked := st.blocked,
             counter := { size := st.counter.size,
                          marked := i :: st.counter.marked },
             trace := st.trace ++ [TraceEv.barrier i e] } : LoopState) := by
        rw [hmark1]
      rw [hR] at hstep
      have hib : CheckpointCounter.is_blocked
          { size := st.counter.size, marked := i :: st.counter.marked } i = true := by
        rw [CheckpointCounter.is_blocked]
        simp
      have hst2 : st2 =
          { queues := st.queues.set i rest,
            sel := st.sel.erase i,
            blocked := st.blocked ++ [i],
            counter := { size := st.counter.size,
                         marked := i :: st.counter.marked },
            trace := st.trace ++ [.barrier i e] } := by
        rw [← hstep]
        exact afterDispatch_blocked _ _ hib
      subst hst2
      refine Or.inl ⟨?_, hinv.hcsize, ?_, ?_, ?_, hinv.hselnd.erase i, ?_, ?_,
        ?_, ?_, ?_, ?_, ?_, ?_⟩
      · simp [hinv.hqlen]
      · exact List.nodup_cons.2 ⟨hnotmk, hinv.hmnd⟩
      · intro x hx
        rcases List.mem_cons.1 hx with hx | hx
        · rw [hx]; exact hiltn
        · exact hinv.hmlt x hx
      · intro j
        rw [List.mem_append, List.mem_singleton, List.mem_cons]
        constructor
        · intro hj
          rcases hj with hj | hj
          · exact Or.inr ((hinv.hblk j).1 hj)
          · exact Or.inl hj
        · intro hj
          rcases hj with hj | hj
          · exact Or.inr hj
          · exact Or.inl ((hinv.hblk j).2 hj)
      · refine List.nodup_append.2 ⟨hinv.hblknd, List.nodup_singleton i, ?_⟩
        intro a ha hai
        rw [List.mem_singleton] at hai
        rw [hai] at ha
        exact hnotblk ha
      · intro j hj
        exact hinv.hsellt j (List.mem_of_mem_erase hj)
      · intro j hj hj2
        rcases List.mem_append.1 hj2 with hj2 | hj2
        · exact hinv.hdisj j (List.mem_of_mem_erase hj) hj2
        · rw [List.mem_singleton] at hj2
          exact ((hselerase j).1 hj).1 hj2
      · intro j hj
        rcases hinv.hcover j hj with hj2 | hj2
        · by_cases hji : j = i
          · right
            rw [List.mem_append, List.mem_singleton]
            exact Or.inr hji
          · left
            exact (hselerase j).2 ⟨hji, hj2⟩
        · right
          rw [List.mem_append]
          exact Or.inl hj2
      · intro j hj
        rw [barrierCount_append_barrier]
        by_cases hji : i = j
        · rw [if_pos hji, ← hji, hdelivi, if_pos (List.mem_cons_self i _)]
        · rw [if_neg hji]
          have h := hinv.hdeliv j hj
          have hmm : j ∈ i :: st.counter.marked ↔ j ∈ st.counter.marked := by
            rw [List.mem_cons]
            constructor
            · intro hc
              rcases hc with hc | hc
              · exact absurd hc.symm hji
              · exact hc
            · exact Or.inr
          by_cases hjm : j ∈ st.counter.marked
          · rw [if_pos hjm] at h
            rw [if_pos (hmm.2 hjm)]
            omega
          · rw [if_neg hjm] at h
            rw [if_neg (fun hc => hjm (hmm.1 hc))]
            omega
      · intro j q hq2
        by_cases hji : j = i
        · rw [hji] at hq2 ⊢
          rw [List.get?_set_eq_of_lt rest hiq] at hq2
          injection hq2 with hq2
          rw [← hq2, barrierCount_append_barrier, if_pos rfl, hdelivi]
          exact hwfrest
        · rw [List.get?_set_ne rest _ (fun hc => hji hc.symm)] at hq2
          rw [barrierCount_append_barrier, if_neg (fun hc => hji hc.symm)]
          exact hinv.hwf j q hq2
      · exact hbar_barrier_step st.trace i e B hdelivi he hinv.hbar
      · exact hrec_barrier_step n st.trace i e hinv.hrec

theorem run6_inv (choices : List Nat) :
    ∀ (n B : Nat) (st st2 : LoopState), run6 choices st = some st2 →
      Inv6 n B st → ∃ B2, B ≤ B2 ∧ Inv6 n B2 st2 := by
  induction choices with
  | nil =>
    intro n B st st2 hrun hinv
    rw [run6] at hrun
    injection hrun with hrun
    exact ⟨B, Nat.le_refl B, hrun ▸ hinv⟩
  | cons i rest ih =>
    intro n B st st2 hrun hinv
    rw [run6] at hrun
    cases hs : step6 st i with
    | none =>
      rw [hs] at hrun
      simp only [] at hrun
      exact Option.noConfusion hrun
    | some st1 =>
      rw [hs] at hrun
      simp only [] at hrun
      rcases step6_inv n B st st1 i hs hinv with h | h
      · exact ih n B st1 st2 hrun h
      · obtain ⟨B2, hle, hinv2⟩ := ih n (B + 1) st1 st2 hrun h
        exact ⟨B2, by omega, hinv2⟩

theorem afterDispatch_park (st : LoopState) (i : Nat)
    (h : (afterDispatch st i).counter.is_blocked i = true) :
    i ∈ (afterDispatch st i).blocked := by
  rw [afterDispatch] at h ⊢
  by_cases h1 : st.counter.is_blocked i = true
  · rw [if_pos h1]
    exact List.mem_append.2 (Or.inr (List.mem_singleton.2 rfl))
  · rw [if_neg h1] at h
    by_cases h2 : (st.counter.all_clear && !st.blocked.isEmpty) = true
    · rw [if_pos h2] at h
      exact absurd h h1
    · rw [if_neg h2] at h
      exact absurd h h1

theorem afterDispatch_readmit (st : LoopState) (i j : Nat)
    (hjs : j ∉ st.sel) (hji : j ≠ i)
    (hj2 : j ∈ (afterDispatch st i).sel) :
    (afterDispatch st i).counter.all_clear = true := by
  rw [afterDispatch] at hj2 ⊢
  by_cases h1 : st.counter.is_blocked i = true
  · rw [if_pos h1] at hj2
    exact absurd hj2 hjs
  · rw [if_neg h1] at hj2 ⊢
    by_cases h2 : (st.counter.all_clear && !st.blocked.isEmpty) = true
    · rw [if_pos h2]
      rw [Bool.and_eq_true] at h2
      exact h2.1
    · rw [if_neg h2] at hj2
      rcases List.mem_append.1 hj2 with hc | hc
      · exact absurd hc hjs
      · rw [List.mem_singleton] at hc
        exact absurd hc hji

/-- C6: barrier alignment in the generated event loop. First conjunct: from
any initial set of wellformed input queues (records of the in-flight epoch,
one barrier per epoch, FIFO), along every dispatch schedule, each input
partition has contributed exactly one barrier for epoch `E` before any
record of epoch `E + 1` is dispatched. Second conjunct: after a step
dispatches partition `i`, whenever the checkpoint counter reports `i`
blocked, `i` is parked in the blocked set. Third conjunct: a partition that
was blocked is re-admitted into the ready set by a step only when
`all_clear` holds afterwards. -/
theorem c6_barrier_alignment :
    (∀ (qs : List (List Msg6)) (choices : List Nat) (st2 : LoopState),
      (∀ q ∈ qs, wfQueue 1 q = true) →
      run6 choices (init6 qs) = some st2 →
      ∀ t1 i E t2, st2.trace = t1 ++ .record i (E + 1) :: t2 → 1 ≤ E →
        ∀ j, j < qs.length → countBar t1 j E = 1) ∧
    (∀ (st : LoopState) (i : Nat) (st2 : LoopState),
      step6 st i = some st2 → st2.counter.is_blocked i = true →
      i ∈ st2.blocked) ∧
    (∀ (st : LoopState) (i : Nat) (st2 : LoopState) (j : Nat),
      step6 st i = some st2 → (∀ x ∈ st.sel, x ∉ st.blocked) →
      j ∈ st.blocked → j ∈ st2.sel → st2.counter.all_clear = true) := by
  refine ⟨?_, ?_, ?_⟩
  · intro qs choices st2 hwfq hrun t1 i E t2 htr hE j hj
    obtain ⟨B2, _, hinv2⟩ :=
      run6_inv choices qs.length 0 (init6 qs) st2 hrun (inv6_init qs hwfq)
    exact hinv2.hrec t1 i E t2 htr hE j hj
  · intro st i st2 hstep hblk2
    rw [step6] at hstep
    by_cases hin : i ∈ st.sel
    case neg =>
      rw [if_neg hin] at hstep
      exact Option.noConfusion hstep
    case pos =>
    rw [if_pos hin] at hstep
    cases hq : st.queues.get? i with
    | none =>
      rw [hq] at hstep
      simp only [] at hstep
      exact Option.noConfusion hstep
    | some q =>
    cases q with
    | nil =>
      rw [hq] at hstep
      simp only [] at hstep
      exact Option.noConfusion hstep
    | cons m rest =>
    rw [hq] at hstep
    simp only [] at hstep
    cases m with
    | record e =>
      injection hstep with hstep
      rw [← hstep] at hblk2 ⊢
      exact afterDispatch_park _ _ hblk2
    | barrier e =>
      injection hstep with hstep
      rw [← hstep] at hblk2 ⊢
      exact afterDispatch_park _ _ hblk2
  · intro st i st2 j hstep hdisj hj hj2
    rw [step6] at hstep
    by_cases hin : i ∈ st.sel
    case neg =>
      rw [if_neg hin] at hstep
      exact Option.noConfusion hstep
    case pos =>
    rw [if_pos hin] at hstep
    cases hq : st.queues.get? i with
    | none =>
      rw [hq] at hstep
      simp only [] at hstep
      exact Option.noConfusion hstep
    | some q =>
    cases q with
    | nil =>
      rw [hq] at hstep
      simp only [] at hstep
      exact Option.noConfusion hstep
    | cons m rest =>
    rw [hq] at hstep
    simp only [] at hstep
    have hjs : j ∉ st.sel := fun hc => hdisj j hc hj
    have hjse : j ∉ st.sel.erase i := fun hc => hjs (List.mem_of_mem_erase hc)
    have hji : j ≠ i := fun hc => hdisj i hin (hc ▸ hj)
    cases m with
    | record e =>
      injection hstep with hstep
      rw [← hstep] at hj2 ⊢
      exact afterDispatch_readmit _ _ _ hjse hji hj2
    | barrier e =>
      injection hstep with hstep
      rw [← hstep] at hj2 ⊢
      exact afterDispatch_readmit _ _ _ hjse hji hj2

def c6Qs : List (List Msg6) :=
  [[.record 1, .barrier 1, .record 2], [.barrier 1]]

def c6T1 : List TraceEv := [.record 0 1, .barrier 0 1, .barrier 1 1]

def c6Final : LoopState :=
  { queues := [[], []], sel := [1, 0], blocked := [],
    counter := { size := 2, marked := [] },
    trace := [.record 0 1, .barrier 0 1, .barrier 1 1, .record 0 2] }

def c6StA : LoopState :=
  { queues := [[.barrier 1]], sel := [0], blocked := [],
    counter := { size := 2, marked := [] }, trace := [] }

def c6StA2 : LoopState :=
  { queues := [[]], sel := [], blocked := [0],
    counter := { size := 2, marked := [0] }, trace := [.barrier 0 1] }

def c6StB : LoopState :=
  { queues := [[.barrier 1]], sel := [0], blocked := [1],
    counter := { size := 2, marked := [1] }, trace := [] }

def c6StB2 : LoopState :=
  { queues := [[]], sel := [1, 0], blocked := [],
    counter := { size := 2, marked := [] }, trace := [.barrier 0 1] }

theorem c6_witness :
    countBar c6T1 0 1 = 1 ∧ countBar c6T1 1 1 = 1 ∧
    0 ∈ c6StA2.blocked ∧ c6StB2.counter.all_clear = true :=
  ⟨c6_barrier_alignment.1 c6Qs [0, 0, 1, 0] c6Final (by decide) (by decide)
      c6T1 0 1 [] (by decide) (by decide) 0 (by decide),
   c6_barrier_alignment.1 c6Qs [0, 0, 1, 0] c6Final (by decide) (by decide)
      c6T1 0 1 [] (by decide) (by decide) 1 (by decide),
   c6_barrier_alignment.2.1 c6StA 0 c6StA2 (by decide) (by decide),
   c6_barrier_alignment.2.2 c6StB 0 c6StB2 1 (by decide) (by decide)
      (by decide) (by decide)⟩

end Arroyo
